import Mathlib

/-!
Verification of the git-fission patch-splitting core.

The TypeScript sources are shallowly embedded: JavaScript strings are
modelled as lists of characters (`Str`), so that the line-oriented string
surgery of the original code (split on newline, prefix tests, joins) becomes
ordinary list manipulation.  Each `def` in the `GitFission` namespace is a
direct translation of the function of the same name in the repository;
claim-side specification functions carry a `Spec` suffix or live in doc
comments and are written from the specification text, to be compared with
the translated code.
-/

namespace GitFission

/-- JavaScript strings are modelled as lists of characters. -/
abbrev Str := List Char

/-- Coercion from Lean string literals into the character-list model. -/
def str (s : String) : Str := s.data

/-- Mirrors JavaScript `s.split('\n')`: splits at every newline character,
keeping empty pieces (so a trailing newline yields a trailing empty line,
and the empty string yields one empty line). -/
def splitNL : Str → List Str
  | [] => [[]]
  | c :: cs =>
    if c = '\n' then [] :: splitNL cs
    else (c :: (splitNL cs).headD []) :: (splitNL cs).tail

/-- Mirrors JavaScript `lines.join('\n')`. -/
def joinNL : List Str → Str
  | [] => []
  | [l] => l
  | l :: ls => l ++ '\n' :: joinNL ls

/-- Mirrors JavaScript `haystack.includes(needle)` (substring search). -/
def containsSub (hay pat : Str) : Bool :=
  (List.range (hay.length + 1)).any (fun i => pat.isPrefixOf (hay.drop i))

/-- Decimal value of a digit string, as computed by `parseInt` on an
all-digit match of a `\d+` capture group. -/
def digitsToNat (ds : Str) : Nat := ds.foldl (fun acc c => acc * 10 + (c.toNat - 48)) 0

/-- Decimal rendering of a natural number, as interpolated by a JavaScript
template literal. -/
def natToStr (n : Nat) : Str := Nat.toDigits 10 n

/-- Decimal rendering of an integer (the adjusted new-start can in principle
go negative in the offset arithmetic, so it is kept as an integer). -/
def intToStr (i : Int) : Str := if i < 0 then '-' :: natToStr i.natAbs else natToStr i.natAbs

/-- Parsed fields of a `@@ -a,b +c,d @@label` hunk header. -/
structure HunkHeader where
  oldStart : Nat
  oldCount : Nat
  newStart : Nat
  newCount : Nat
  suffix : Str
deriving Repr, DecidableEq, Inhabited

/-- Translation of the header regular expression
`@@ -(\d+),?(\d*) \+(\d+),?(\d*) @@(.*)` used by `rebuildPatchFromHunks` and
`rebuildPatchFromLineIds` in `git.ts` (and, up to anchoring, of the regex in
`filterHunk` in the assemble phase).  The match is anchored at the start of
the line; hunk header lines produced by the parser always begin with `@@`.
Missing counts default to 1, exactly as `headerMatch[2] ? parseInt(...) : 1`
does. -/
def parseHunkHeader (s : Str) : Option HunkHeader :=
  if (str "@@ -").isPrefixOf s then
    let r0 := s.drop 4
    let d1 := r0.takeWhile Char.isDigit
    let r1 := r0.dropWhile Char.isDigit
    if d1.isEmpty then none else
    let r2 := if r1.headD 'x' = ',' then r1.drop 1 else r1
    let d2 := r2.takeWhile Char.isDigit
    let r3 := r2.dropWhile Char.isDigit
    if (str " +").isPrefixOf r3 then
      let r4 := r3.drop 2
      let d3 := r4.takeWhile Char.isDigit
      let r5 := r4.dropWhile Char.isDigit
      if d3.isEmpty then none else
      let r6 := if r5.headD 'x' = ',' then r5.drop 1 else r5
      let d4 := r6.takeWhile Char.isDigit
      let r7 := r6.dropWhile Char.isDigit
      if (str " @@").isPrefixOf r7 then
        some { oldStart := digitsToNat d1
               oldCount := if d2.isEmpty then 1 else digitsToNat d2
               newStart := digitsToNat d3
               newCount := if d4.isEmpty then 1 else digitsToNat d4
               suffix := r7.drop 3 }
      else none
    else none
  else none

/-- Rendering of a rebuilt hunk header, mirroring the template literal
`@@ -$\x7boldStart\x7d,$\x7boldCount\x7d +$\x7bnewStart\x7d,$\x7bnewCount\x7d @@$\x7bsuffix\x7d`. -/
def renderHunkHeader (oldStart oldCount : Nat) (newStart : Int) (newCount : Nat)
    (suffix : Str) : Str :=
  str "@@ -" ++ natToStr oldStart ++ ',' :: natToStr oldCount
    ++ str " +" ++ intToStr newStart ++ ',' :: natToStr newCount
    ++ str " @@" ++ suffix

/-- `ParsedHunk` record from `git.ts`. -/
structure ParsedHunk where
  id : Nat
  filePath : Str
  header : Str
  content : Str
  fullHunk : Str
  startLine : Nat
  summary : Str
deriving Repr, DecidableEq, Inhabited

/-- `ParsedFileDiff` record from `git.ts`. -/
structure ParsedFileDiff where
  filePath : Str
  fileHeader : Str
  hunks : List ParsedHunk
deriving Repr, DecidableEq, Inhabited

/-- The hunks of a file whose id is in the selected set, in original
within-file order; mirrors `file.hunks.filter(h => hunkSet.has(h.id))` in
`rebuildPatchFromHunks`. -/
def selectedHunks (file : ParsedFileDiff) (hunkIds : List Nat) : List ParsedHunk :=
  file.hunks.filter (fun h => hunkIds.contains h.id)

/-- Net growth `newCount - oldCount` of a hunk, the quantity accumulated
into `cumulativeOffset`. -/
def hunkNetDelta (hh : HunkHeader) : Int := (hh.newCount : Int) - (hh.oldCount : Int)

/-- Inner loop of `rebuildPatchFromHunks` (git.ts): walks the selected hunks
of one file carrying `cumulativeOffset`; a hunk whose header fails the regex
is emitted as its unmodified `fullHunk` and does not advance the offset. -/
def rebuildHunksLoop : List ParsedHunk → Int → List Str
  | [], _ => []
  | h :: hs, off =>
    match parseHunkHeader h.header with
    | none => h.fullHunk :: rebuildHunksLoop hs off
    | some hh =>
      (renderHunkHeader hh.oldStart hh.oldCount ((hh.oldStart : Int) + off) hh.newCount hh.suffix
          ++ '\n' :: h.content)
        :: rebuildHunksLoop hs (off + hunkNetDelta hh)

/-- The `patchParts` array accumulated by `rebuildPatchFromHunks`. -/
def rebuildPatchPartsFromHunks (files : List ParsedFileDiff) (hunkIds : List Nat) : List Str :=
  (files.map (fun file =>
    let sel := selectedHunks file hunkIds
    if sel.isEmpty then [] else file.fileHeader :: rebuildHunksLoop sel 0)).flatten

/-- Translation of `rebuildPatchFromHunks` (git.ts, lines 253-300). -/
def rebuildPatchFromHunks (files : List ParsedFileDiff) (hunkIds : List Nat) : Str :=
  joinNL (rebuildPatchPartsFromHunks files hunkIds) ++ ['\n']

/-- Example file for the offset witness: three hunks H1 (old 10,5 new 10,8),
H2 (old 50,3 new 53,6), H3 (old 100,4 new 106,4), with ids 0, 1, 2. -/
def exHunkH1 : ParsedHunk :=
  { id := 0, filePath := str "f", header := str "@@ -10,5 +10,8 @@",
    content := str " a", fullHunk := str "@@ -10,5 +10,8 @@\n a",
    startLine := 10, summary := [] }

def exHunkH2 : ParsedHunk :=
  { id := 1, filePath := str "f", header := str "@@ -50,3 +53,6 @@",
    content := str " b", fullHunk := str "@@ -50,3 +53,6 @@\n b",
    startLine := 50, summary := [] }

def exHunkH3 : ParsedHunk :=
  { id := 2, filePath := str "f", header := str "@@ -100,4 +106,4 @@",
    content := str " c", fullHunk := str "@@ -100,4 +106,4 @@\n c",
    startLine := 100, summary := [] }

def exFileC1 : ParsedFileDiff :=
  { filePath := str "f", fileHeader := str "diff --git a/f b/f",
    hunks := [exHunkH1, exHunkH2, exHunkH3] }

/-- Result record of `filterHunk` (assemble phase). -/
structure FilteredHunk where
  header : Str
  content : Str
  hasChanges : Bool
deriving Repr, DecidableEq, Inhabited

/-- Inner loop of `filterHunk`: walks the hunk content lines with their
index, skipping a final empty line (artifact of the newline split), keeping
selected additions and deletions, dropping unselected additions, rewriting
unselected deletions to context, and keeping context lines; returns the
filtered lines and the derived old/new counts and change flag.  `total` is
the length of the full line list. -/
def filterHunkLoop (total : Nat) (sel : List Nat) : List Str → Nat → List Str × Nat × Nat × Bool
  | [], _ => ([], 0, 0, false)
  | line :: rest, idx =>
    let r := filterHunkLoop total sel rest (idx + 1)
    if line = [] ∧ idx = total - 1 then r
    else if (str "+").isPrefixOf line then
      if sel.contains idx then (line :: r.1, r.2.1, r.2.2.1 + 1, true) else r
    else if (str "-").isPrefixOf line then
      if sel.contains idx then (line :: r.1, r.2.1 + 1, r.2.2.1, true)
      else ((' ' :: line.drop 1) :: r.1, r.2.1 + 1, r.2.2.1 + 1, r.2.2.2)
    else if (str " ").isPrefixOf line then
      (line :: r.1, r.2.1 + 1, r.2.2.1 + 1, r.2.2.2)
    else r

/-- Translation of `filterHunk` (assemble phase, part_003 lines 146-208).
Note that the rebuilt header reuses the ORIGINAL header's new-start
(`headerMatch[3]`); only the counts are recomputed. -/
def filterHunk (hunk : ParsedHunk) (selectedIndices : List Nat) : FilteredHunk :=
  match parseHunkHeader hunk.header with
  | none => { header := hunk.header, content := hunk.content, hasChanges := false }
  | some hh =>
    let hunkLines := splitNL hunk.content
    let r := filterHunkLoop hunkLines.length selectedIndices hunkLines 0
    { header := renderHunkHeader hh.oldStart r.2.1 (hh.newStart : Int) r.2.2.1 hh.suffix
      content := joinNL r.1
      hasChanges := r.2.2.2 }

/-- Inner filtering loop of `rebuildPatchFromLineIds` (git.ts lines
451-481).  It differs from `filterHunkLoop` only on lines that start with
none of `+`, `-`, a space: those are kept but counted in neither side
(`filterHunk` drops them instead). -/
def rebuildHunkLinesLoop (total : Nat) (sel : List Nat) : List Str → Nat → List Str × Nat × Nat
  | [], _ => ([], 0, 0)
  | line :: rest, idx =>
    let r := rebuildHunkLinesLoop total sel rest (idx + 1)
    if line = [] ∧ idx = total - 1 then r
    else if (str "+").isPrefixOf line then
      if sel.contains idx then (line :: r.1, r.2.1, r.2.2 + 1) else r
    else if (str "-").isPrefixOf line then
      if sel.contains idx then (line :: r.1, r.2.1 + 1, r.2.2)
      else ((' ' :: line.drop 1) :: r.1, r.2.1 + 1, r.2.2 + 1)
    else
      (line :: r.1,
        if (str " ").isPrefixOf line ∨ line = [] then r.2.1 + 1 else r.2.1,
        if (str " ").isPrefixOf line ∨ line = [] then r.2.2 + 1 else r.2.2)

/-- Claim-side taxonomy of hunk content lines, from the specification:
additions, deletions and context lines, recognised by their leading
character. -/
inductive LineKind where
  | addition
  | deletion
  | context
deriving Repr, DecidableEq

/-- Claim-side classification of a raw hunk content line. -/
def lineKind (line : Str) : Option LineKind :=
  if (str "+").isPrefixOf line then some .addition
  else if (str "-").isPrefixOf line then some .deletion
  else if (str " ").isPrefixOf line then some .context
  else none

/-- Claim-side line transformation, written from the specification text: a
selected addition is kept, an unselected addition is omitted, a selected
deletion is kept, an unselected deletion becomes a context line (space plus
original text), a context line is kept verbatim. -/
def filterSpecLine (selected : Bool) : LineKind → Str → Option Str
  | .addition, line => if selected then some line else none
  | .deletion, line => if selected then some line else some (' ' :: line.drop 1)
  | .context, line => some line

/-- Claim-side contribution of a line to the derived old-count: additions
never count, deletions and context always count. -/
def specOldContrib : LineKind → Nat
  | .addition => 0
  | .deletion => 1
  | .context => 1

/-- Claim-side contribution of a line to the derived new-count: a selected
addition counts, an unselected addition does not, a selected deletion does
not, an unselected deletion (now context) counts, context counts. -/
def specNewContrib (selected : Bool) : LineKind → Nat
  | .addition => if selected then 1 else 0
  | .deletion => if selected then 0 else 1
  | .context => 1

/-- Claim-side filtered hunk: lines, derived old-count, derived new-count,
assembled directly from the specification taxonomy; unclassifiable lines
(under well-formedness, only a final empty split artifact) are ignored. -/
def filterHunkSpecLoop (sel : List Nat) : List Str → Nat → List Str × Nat × Nat
  | [], _ => ([], 0, 0)
  | line :: rest, idx =>
    let r := filterHunkSpecLoop sel rest (idx + 1)
    match lineKind line with
    | none => r
    | some k =>
      ((match filterSpecLine (sel.contains idx) k line with
        | none => r.1
        | some l => l :: r.1),
       specOldContrib k + r.2.1,
       specNewContrib (sel.contains idx) k + r.2.2)

/-- A hunk content line list is well formed when every line is an addition,
deletion or context line, except possibly a final empty line left over from
splitting content that ended in a newline. -/
def WellFormedHunkLines (lines : List Str) : Prop :=
  ∀ j, j < lines.length →
    (lineKind (lines.getD j [])).isSome = true ∨ (lines.getD j [] = [] ∧ j = lines.length - 1)

instance (lines : List Str) : Decidable (WellFormedHunkLines lines) := by
  unfold WellFormedHunkLines; infer_instance

/-- `ChangedLine` record from `git.ts` (`type` is the `+` or `-` prefix
character). -/
structure ChangedLine where
  id : Nat
  filePath : Str
  hunkIdx : Nat
  lineIdx : Nat
  type : Char
  content : Str
deriving Repr, DecidableEq, Inhabited

/-- `ParsedDiffWithLines` record from `git.ts`. -/
structure ParsedDiffWithLines where
  files : List ParsedFileDiff
  lines : List ChangedLine
deriving Repr, DecidableEq, Inhabited

/-- Changed-line collection of `parseDiffWithLines` for one hunk: walks the
content lines assigning the global id counter to `+` and `-` lines. -/
def collectHunkLines (fp : Str) (hunkIdx : Nat) : List Str → Nat → Nat → List ChangedLine × Nat
  | [], _, idCounter => ([], idCounter)
  | line :: rest, lineIdx, idCounter =>
    if (str "+").isPrefixOf line then
      let r := collectHunkLines fp hunkIdx rest (lineIdx + 1) (idCounter + 1)
      (⟨idCounter, fp, hunkIdx, lineIdx, '+', line.drop 1⟩ :: r.1, r.2)
    else if (str "-").isPrefixOf line then
      let r := collectHunkLines fp hunkIdx rest (lineIdx + 1) (idCounter + 1)
      (⟨idCounter, fp, hunkIdx, lineIdx, '-', line.drop 1⟩ :: r.1, r.2)
    else collectHunkLines fp hunkIdx rest (lineIdx + 1) idCounter

/-- Changed-line collection over the hunks of one file. -/
def collectFileLines (fp : Str) : List ParsedHunk → Nat → Nat → List ChangedLine × Nat
  | [], _, c => ([], c)
  | h :: hs, hunkIdx, c =>
    let r1 := collectHunkLines fp hunkIdx (splitNL h.content) 0 c
    let r2 := collectFileLines fp hs (hunkIdx + 1) r1.2
    (r1.1 ++ r2.1, r2.2)

/-- Changed-line collection over all files, threading the global id. -/
def collectAllLines : List ParsedFileDiff → Nat → List ChangedLine × Nat
  | [], c => ([], c)
  | f :: fs, c =>
    let r1 := collectFileLines f.filePath f.hunks 0 c
    let r2 := collectAllLines fs r1.2
    (r1.1 ++ r2.1, r2.2)

/-- The line-indexing part of `parseDiffWithLines` (git.ts lines 325-361),
given already-parsed files. -/
def parseDiffWithLinesOf (files : List ParsedFileDiff) : ParsedDiffWithLines :=
  { files := files, lines := (collectAllLines files 0).1 }

/-- The per-hunk selected line indices of `rebuildPatchFromLineIds`: the
`lineIdx` values of the selected changed lines belonging to the given file
and hunk index (the `selectedByFileHunk` map keyed by file path and hunk
index). -/
def lineIdsSelection (parsed : ParsedDiffWithLines) (lineIds : List Nat) (fp : Str)
    (hidx : Nat) : List Nat :=
  (parsed.lines.filter
    (fun l => lineIds.contains l.id && l.filePath == fp && l.hunkIdx == hidx)).map
    (fun l => l.lineIdx)

/-- Per-file hunk loop of `rebuildPatchFromLineIds` (git.ts lines 425-493):
walks the hunks of one file carrying `cumulativeOffset`; hunks whose header
fails to parse, with empty selection, or with no change after filtering are
skipped without advancing the offset. -/
def rebuildFileHunksLoop (parsed : ParsedDiffWithLines) (lineIds : List Nat) (fp : Str) :
    List ParsedHunk → Nat → Int → List Str
  | [], _, _ => []
  | hunk :: rest, hunkIdx, off =>
    match parseHunkHeader hunk.header with
    | none => rebuildFileHunksLoop parsed lineIds fp rest (hunkIdx + 1) off
    | some hh =>
      let sel := lineIdsSelection parsed lineIds fp hunkIdx
      if sel.isEmpty then rebuildFileHunksLoop parsed lineIds fp rest (hunkIdx + 1) off
      else
        let hunkLines := splitNL hunk.content
        let r := rebuildHunkLinesLoop hunkLines.length sel hunkLines 0
        if r.1.any (fun l => (str "+").isPrefixOf l || (str "-").isPrefixOf l) then
          (renderHunkHeader hh.oldStart r.2.1 ((hh.oldStart : Int) + off) r.2.2 hh.suffix
              ++ '\n' :: joinNL r.1)
            :: rebuildFileHunksLoop parsed lineIds fp rest (hunkIdx + 1)
                (off + ((r.2.2 : Int) - (r.2.1 : Int)))
        else rebuildFileHunksLoop parsed lineIds fp rest (hunkIdx + 1) off

/-- Translation of `isNewFileHeader` (git.ts): substring tests on the whole
file header. -/
def isNewFileHeader (header : Str) : Bool :=
  containsSub header (str "new file mode") || containsSub header (str "--- /dev/null")

/-- Translation of `convertNewFileToModificationHeader` (git.ts lines
379-398): drop `new file mode` lines, replace the `--- /dev/null` line by
`--- a/<path>`, keep everything else. -/
def convertNewFileToModificationHeader (header fp : Str) : Str :=
  joinNL ((splitNL header).filterMap (fun line =>
    if (str "new file mode").isPrefixOf line then none
    else if line == str "--- /dev/null" then some (str "--- a/" ++ fp)
    else some line))

/-- `createdFiles?.has(path)`: the JavaScript optional-chaining read of the
optional created-files set. -/
def createdHas (created : Option (List Str)) (fp : Str) : Bool :=
  match created with
  | none => false
  | some s => s.contains fp

/-- `createdFiles?.add(path)`: the optional-chaining insert. -/
def createdAdd (created : Option (List Str)) (fp : Str) : Option (List Str) :=
  match created with
  | none => none
  | some s => if s.contains fp then some s else some (s ++ [fp])

/-- The new-file bookkeeping step of `rebuildPatchFromLineIds` (git.ts lines
496-507): a new-file header is kept (and the path recorded) for the first
patch that touches the file, and rewritten to a modification header for
every later patch. -/
def resolveFileHeader (header fp : Str) (created : Option (List Str)) :
    Str × Option (List Str) :=
  if isNewFileHeader header then
    if createdHas created fp then (convertNewFileToModificationHeader header fp, created)
    else (header, createdAdd created fp)
  else (header, created)

/-- The `patchParts` accumulation of `rebuildPatchFromLineIds` over the
parsed files, threading the created-files set. -/
def rebuildPatchPartsFromLineIds (parsed : ParsedDiffWithLines) (lineIds : List Nat) :
    List ParsedFileDiff → Option (List Str) → List Str × Option (List Str)
  | [], created => ([], created)
  | file :: rest, created =>
    let fileHunks := rebuildFileHunksLoop parsed lineIds file.filePath file.hunks 0 0
    if fileHunks.isEmpty then rebuildPatchPartsFromLineIds parsed lineIds rest created
    else
      let rh := resolveFileHeader file.fileHeader file.filePath created
      let rt := rebuildPatchPartsFromLineIds parsed lineIds rest rh.2
      (rh.1 :: fileHunks ++ rt.1, rt.2)

/-- Translation of `rebuildPatchFromLineIds` (git.ts lines 400-515),
returning the patch text together with the updated created-files set (the
JavaScript version mutates the set in place). -/
def rebuildPatchFromLineIds (parsed : ParsedDiffWithLines) (lineIds : List Nat)
    (created : Option (List Str)) : Str × Option (List Str) :=
  let r := rebuildPatchPartsFromLineIds parsed lineIds parsed.files created
  (joinNL r.1 ++ ['\n'], r.2)

/-- Claim-side list of the hunks of one file that line-level reconstruction
keeps (header parses, selection non-empty, filtered content still has a
change), with their parsed header and filtered lines and counts.  The kept
set is independent of the running offset. -/
def keptHunksSpec (parsed : ParsedDiffWithLines) (lineIds : List Nat) (fp : Str) :
    List ParsedHunk → Nat → List (HunkHeader × (List Str × Nat × Nat))
  | [], _ => []
  | hunk :: rest, hunkIdx =>
    match parseHunkHeader hunk.header with
    | none => keptHunksSpec parsed lineIds fp rest (hunkIdx + 1)
    | some hh =>
      let sel := lineIdsSelection parsed lineIds fp hunkIdx
      if sel.isEmpty then keptHunksSpec parsed lineIds fp rest (hunkIdx + 1)
      else
        let hunkLines := splitNL hunk.content
        let r := rebuildHunkLinesLoop hunkLines.length sel hunkLines 0
        if r.1.any (fun l => (str "+").isPrefixOf l || (str "-").isPrefixOf l) then
          (hh, r) :: keptHunksSpec parsed lineIds fp rest (hunkIdx + 1)
        else keptHunksSpec parsed lineIds fp rest (hunkIdx + 1)

/-- Net delta of a kept hunk: filtered new-count minus filtered old-count. -/
def keptDelta (k : HunkHeader × (List Str × Nat × Nat)) : Int :=
  (k.2.2.2 : Int) - (k.2.2.1 : Int)

/-- `LineRange` record consumed by `buildPatches`; its declaration lives in
the extract phase, which is not part of this snapshot, but the fields are
fully determined by their uses in `buildPatches` (a hunk id and an inclusive
index range into that hunk's content lines). -/
structure LineRange where
  hunkId : Nat
  startLineIdx : Nat
  endLineIdx : Nat
deriving Repr, DecidableEq, Inhabited

/-- One file's worth of selected ranges inside a `CommitChanges` record
(fields as used by `buildPatches`). -/
structure FileChangeRanges where
  filePath : Str
  ranges : List LineRange
deriving Repr, DecidableEq, Inhabited

/-- `CommitChanges` record consumed by `buildPatches` (fields as used
there). -/
structure CommitChanges where
  commitId : Str
  message : Str
  description : Str
  fileChanges : List FileChangeRanges
deriving Repr, DecidableEq, Inhabited

/-- `AssembledPatch` record produced by `buildPatches`. -/
structure AssembledPatch where
  commitId : Str
  message : Str
  description : Str
  patch : Str
deriving Repr, DecidableEq, Inhabited

/-- Expansion of an inclusive line range, mirroring
`for (let i = range.startLineIdx; i <= range.endLineIdx; i++)`. -/
def expandRange (r : LineRange) : List Nat :=
  List.range' r.startLineIdx (r.endLineIdx + 1 - r.startLineIdx)

/-- The `usedIndicesByHunk` map of `buildPatches`, as an association list
from hunk id to the indices already consumed by earlier commits. -/
abbrev UsedMap := List (Nat × List Nat)

/-- Read of `usedIndicesByHunk.get(hunk.id) || new Set()`. -/
def usedLookup (m : UsedMap) (hid : Nat) : List Nat := (m.lookup hid).getD []

/-- Marking a hunk's selected indices as used. -/
def usedAdd : UsedMap → Nat → List Nat → UsedMap
  | [], hid, idxs => [(hid, idxs)]
  | (k, v) :: rest, hid, idxs =>
    if k = hid then (k, v ++ idxs) :: rest else (k, v) :: usedAdd rest hid idxs

/-- One hunk kept by `buildPatches` for one commit: the hunk id, the
effective selected indices (after removing indices used by earlier
commits), and the filtered hunk. -/
structure EmittedHunk where
  hunkId : Nat
  selected : List Nat
  filtered : FilteredHunk
deriving Repr, DecidableEq, Inhabited

/-- The per-file hunk loop of `buildPatches` (part_003 lines 287-326):
for each hunk having ranges in this file change, expand the ranges to a
selection, remove indices already used by earlier commits, filter the hunk,
and keep it (marking the selection used) when the filtered hunk still has a
change. -/
def processFileHunks (ranges : List LineRange) :
    List ParsedHunk → UsedMap → List EmittedHunk × UsedMap
  | [], used => ([], used)
  | hunk :: rest, used =>
    let hunkRanges := ranges.filter (fun r => r.hunkId == hunk.id)
    if hunkRanges.isEmpty then processFileHunks ranges rest used
    else
      let sel0 := (hunkRanges.map expandRange).flatten
      let sel := sel0.filter (fun i => !((usedLookup used hunk.id).contains i))
      if sel.isEmpty then processFileHunks ranges rest used
      else
        let filtered := filterHunk hunk sel
        if filtered.hasChanges then
          let r := processFileHunks ranges rest (usedAdd used hunk.id sel)
          (⟨hunk.id, sel, filtered⟩ :: r.1, r.2)
        else processFileHunks ranges rest used

/-- Translation of `buildPatchFromHunks` (part_003 lines 213-247): the file
header is regenerated from scratch, re-emitting a creation header whenever
the ORIGINAL file header indicates a new file, regardless of earlier
patches. -/
def buildPatchFromHunks (file : ParsedFileDiff) (filteredHunks : List (Str × Str)) : Str :=
  if filteredHunks.isEmpty then [] else
  let isNew := containsSub file.fileHeader (str "new file mode")
    || containsSub file.fileHeader (str "--- /dev/null")
  let headerParts :=
    (str "diff --git a/" ++ file.filePath ++ str " b/" ++ file.filePath)
      :: ((if isNew then
            [str "new file mode 100644", str "index 0000000..0000000", str "--- /dev/null"]
          else
            [str "index 0000000..0000000 100644", str "--- a/" ++ file.filePath])
        ++ [str "+++ b/" ++ file.filePath])
  let hunkParts :=
    (filteredHunks.map (fun hk => if hk.2.isEmpty then [hk.1] else [hk.1, hk.2])).flatten
  joinNL (headerParts ++ hunkParts) ++ ['\n']

/-- The per-commit file loop of `buildPatches`: look up each file change's
file (skipping unknown paths) and process its hunks, threading the used
map. -/
def processCommitFiles (files : List ParsedFileDiff) :
    List FileChangeRanges → UsedMap → List (ParsedFileDiff × List EmittedHunk) × UsedMap
  | [], used => ([], used)
  | fc :: rest, used =>
    match files.find? (fun f => f.filePath == fc.filePath) with
    | none => processCommitFiles files rest used
    | some file =>
      let re := processFileHunks fc.ranges file.hunks used
      let rt := processCommitFiles files rest re.2
      ((file, re.1) :: rt.1, rt.2)

/-- Rendering of one commit's patch text: files with at least one kept hunk
contribute a `buildPatchFromHunks` patch, concatenated without separator
(`patchParts.join('')`). -/
def renderCommitPatch (pairs : List (ParsedFileDiff × List EmittedHunk)) : Str :=
  ((pairs.filter (fun p => !p.2.isEmpty)).map (fun p =>
    buildPatchFromHunks p.1 (p.2.map (fun e => (e.filtered.header, e.filtered.content))))).flatten

/-- Structured trace of `buildPatches`: for each commit in order, the
files it touched and the hunks it kept, threading the used-index map
across commits. -/
def buildPatchesAux (files : List ParsedFileDiff) :
    List CommitChanges → UsedMap → List (CommitChanges × List (ParsedFileDiff × List EmittedHunk))
  | [], _ => []
  | commit :: rest, used =>
    let rc := processCommitFiles files commit.fileChanges used
    (commit, rc.1) :: buildPatchesAux files rest rc.2

/-- Translation of `buildPatches` (part_003 lines 255-343): renders the
structured trace into `AssembledPatch` records. -/
def buildPatches (files : List ParsedFileDiff) (commitChanges : List CommitChanges) :
    List AssembledPatch :=
  (buildPatchesAux files commitChanges []).map (fun ct =>
    { commitId := ct.1.commitId, message := ct.1.message, description := ct.1.description,
      patch := renderCommitPatch ct.2 })

/-- The selection a commit's ranges induce for one hunk id — the `sel0` of
`processFileHunks`: expansions of the ranges addressing that hunk. -/
def selOf (ranges : List LineRange) (hid : Nat) : List Nat :=
  ((ranges.filter (fun r => r.hunkId == hid)).map expandRange).flatten

/-- All indices a commit selects for a hunk id, across its file changes. -/
def commitSel (c : CommitChanges) (hid : Nat) : List Nat :=
  c.fileChanges.flatMap (fun fc => selOf fc.ranges hid)

/-- The effective selection of `processFileHunks` for one hunk: the ranges'
expansion minus the indices already used by earlier commits. -/
def hunkSel (ranges : List LineRange) (used : UsedMap) (hid : Nat) : List Nat :=
  (selOf ranges hid).filter (fun j => !((usedLookup used hid).contains j))

/-- How many of the emitted hunks carry hunk id `hid` with index `i`
selected. -/
def emitsOf (es : List EmittedHunk) (hid i : Nat) : Nat :=
  (es.filter (fun e => e.hunkId == hid && e.selected.contains i)).length

/-- Same count over one commit's file/hunk pairs. -/
def emitsOfCommit (pairs : List (ParsedFileDiff × List EmittedHunk)) (hid i : Nat) : Nat :=
  (pairs.map (fun pe => emitsOf pe.2 hid i)).sum

/-- Same count over the whole `buildPatchesAux` trace: how many times, over
all emitted patches, hunk `hid` is emitted with changed-line index `i`
selected. -/
def emitCount (trace : List (CommitChanges × List (ParsedFileDiff × List EmittedHunk)))
    (hid i : Nat) : Nat :=
  (trace.map (fun ct => emitsOfCommit ct.2 hid i)).sum

/-- Example hunk for the C5 witness: a deletion and an addition followed by
a context line. -/
def exC5Hunk : ParsedHunk :=
  { id := 0, filePath := str "w", header := str "@@ -1,2 +1,2 @@",
    content := str "-a\n+b\n x", fullHunk := str "@@ -1,2 +1,2 @@\n-a\n+b\n x",
    startLine := 1, summary := str "" }

/-- Example file for the C5 witness. -/
def exC5File : ParsedFileDiff :=
  { filePath := str "w",
    fileHeader := str "diff --git a/w b/w\n--- a/w\n+++ b/w",
    hunks := [exC5Hunk] }

/-- First commit of the C5 witness: takes line 0 of the hunk. -/
def exC5Commit1 : CommitChanges :=
  { commitId := str "c1", message := str "m1", description := str "d1",
    fileChanges := [{ filePath := str "w", ranges := [⟨0, 0, 0⟩] }] }

/-- Second commit of the C5 witness: takes line 1 of the hunk. -/
def exC5Commit2 : CommitChanges :=
  { commitId := str "c2", message := str "m2", description := str "d2",
    fileChanges := [{ filePath := str "w", ranges := [⟨0, 1, 1⟩] }] }

/-- Example for the C3 counterexample: a hunk at old 100 / new 106 inside an
ordinary (non-new) file, with one deletion and one addition selected. -/
def exHunkC3 : ParsedHunk :=
  { id := 0, filePath := str "f", header := str "@@ -100,4 +106,4 @@",
    content := str " c\n-x\n+y\n d", fullHunk := [], startLine := 100, summary := [] }

def exFileC3 : ParsedFileDiff :=
  { filePath := str "f",
    fileHeader := str "diff --git a/f b/f\nindex 1110000..2220000 100644\n--- a/f\n+++ b/f",
    hunks := [exHunkC3] }

def exCommitC3 : CommitChanges :=
  { commitId := str "c1", message := [], description := [],
    fileChanges := [{ filePath := str "f", ranges := [⟨0, 1, 2⟩] }] }

/-- Example files for the C3 witness: two hunks, each inserting one line. -/
def exHunkC3a : ParsedHunk :=
  { id := 0, filePath := str "g", header := str "@@ -10,2 +10,3 @@",
    content := str " a\n+y\n b", fullHunk := [], startLine := 10, summary := [] }

def exHunkC3b : ParsedHunk :=
  { id := 1, filePath := str "g", header := str "@@ -50,2 +50,3 @@",
    content := str " c\n+z\n d", fullHunk := [], startLine := 50, summary := [] }

def exFileC3pos : ParsedFileDiff :=
  { filePath := str "g", fileHeader := str "diff --git a/g b/g",
    hunks := [exHunkC3a, exHunkC3b] }

def exParsedC3 : ParsedDiffWithLines := parseDiffWithLinesOf [exFileC3pos]

/-- Example for the C4 counterexample: a new file whose two added lines are
split across two commits by the assemble phase. -/
def exNewFileHunk : ParsedHunk :=
  { id := 0, filePath := str "n.txt", header := str "@@ -0,0 +1,2 @@",
    content := str "+a\n+b", fullHunk := [], startLine := 0, summary := [] }

def exNewFile : ParsedFileDiff :=
  { filePath := str "n.txt",
    fileHeader := str "diff --git a/n.txt b/n.txt\nnew file mode 100644\nindex 0000000..1110000\n--- /dev/null\n+++ b/n.txt",
    hunks := [exNewFileHunk] }

def exCommitN1 : CommitChanges :=
  { commitId := str "c1", message := [], description := [],
    fileChanges := [{ filePath := str "n.txt", ranges := [⟨0, 0, 0⟩] }] }

def exCommitN2 : CommitChanges :=
  { commitId := str "c2", message := [], description := [],
    fileChanges := [{ filePath := str "n.txt", ranges := [⟨0, 1, 1⟩] }] }

/-- Claim-side scenario for C4: the sequence of file headers obtained when
`n` successive patches touching the same file run the new-file bookkeeping
step `resolveFileHeader` of `rebuildPatchFromLineIds`, threading the
created-files set from patch to patch. -/
def resolveHeaderTrace (header fp : Str) : Option (List Str) → Nat → List Str
  | _, 0 => []
  | created, n + 1 =>
    let r := resolveFileHeader header fp created
    r.1 :: resolveHeaderTrace header fp r.2 n

/-- Operation kind of the content-diff synthesizer (`DiffOp.type` in
git.ts). -/
inductive DiffOpType where
  | keep
  | add
  | remove
deriving Repr, DecidableEq, Inhabited

/-- `DiffOp` record from git.ts; `oldIdx` and `newIdx` are optional exactly
as in the source. -/
structure DiffOp where
  type : DiffOpType
  oldIdx : Option Nat
  newIdx : Option Nat
  line : Str
deriving Repr, DecidableEq, Inhabited

/-- The per-content position list of the `newLineMap` built by
`computeLineDiff`: the positions of `line` in `newLines`, in increasing
order (the map is built by one forward pass pushing indices). -/
def positions (nw : List Str) (line : Str) : List Nat :=
  (List.range nw.length).filter (fun i => nw.getD i [] == line)

/-- Greedy matching loop of `computeLineDiff` (git.ts lines 626-641): for
each old line in order, match the first position of an identical new line
that is beyond the last match and not yet matched. -/
def greedyMatchesAux (nw : List Str) : List Str → Nat → List Nat → Int → List (Nat × Nat)
  | [], _, _, _ => []
  | line :: rest, oldIdx, matched, last =>
    match (positions nw line).find?
        (fun (j : Nat) => decide ((j : Int) > last) && !(matched.contains j)) with
    | some j => (oldIdx, j) :: greedyMatchesAux nw rest (oldIdx + 1) (j :: matched) (j : Int)
    | none => greedyMatchesAux nw rest (oldIdx + 1) matched last

/-- The matches found by `computeLineDiff`. -/
def greedyMatches (old nw : List Str) : List (Nat × Nat) :=
  greedyMatchesAux nw old 0 [] (-1)

/-- Removal operations for old indices `p, p+1, ..., p+n-1`. -/
def removeOps (old : List Str) (p n : Nat) : List DiffOp :=
  (List.range' p n).map (fun i => ⟨.remove, some i, none, old.getD i []⟩)

/-- Addition operations for new indices `p, p+1, ..., p+n-1`. -/
def addOps (nw : List Str) (p n : Nat) : List DiffOp :=
  (List.range' p n).map (fun i => ⟨.add, none, some i, nw.getD i []⟩)

/-- Op-construction loop of `computeLineDiff` (git.ts lines 643-675):
removals and additions fill the gap before each match, a keep is emitted at
the match position (the pointers never move backwards, hence the `max`),
and the remaining removals and additions are flushed after the last
match. -/
def opsFromMatches (old nw : List Str) : List (Nat × Nat) → Nat → Nat → List DiffOp
  | [], oldPtr, newPtr =>
    removeOps old oldPtr (old.length - oldPtr) ++ addOps nw newPtr (nw.length - newPtr)
  | (oi, ni) :: rest, oldPtr, newPtr =>
    removeOps old oldPtr (oi - oldPtr) ++ addOps nw newPtr (ni - newPtr)
      ++ ⟨.keep, some (max oldPtr oi), some (max newPtr ni), old.getD (max oldPtr oi) []⟩
      :: opsFromMatches old nw rest (max oldPtr oi + 1) (max newPtr ni + 1)

/-- Translation of `computeLineDiff` (git.ts lines 611-676). -/
def computeLineDiff (old nw : List Str) : List DiffOp :=
  opsFromMatches old nw (greedyMatches old nw) 0 0

/-- The running minimum used for hunk start positions, where `none` plays
the role of the JavaScript `Infinity` initial value. -/
def optMin (o : Option Nat) (x : Nat) : Option Nat :=
  match o with
  | none => some x
  | some y => if x < y then some x else some y

/-- Accumulator of `buildHunkString`. -/
structure HunkAcc where
  oldStart : Option Nat
  newStart : Option Nat
  oldCount : Nat
  newCount : Nat
  lines : List Str
deriving Repr, DecidableEq, Inhabited

/-- Translation of `buildHunkString` (git.ts lines 752-791): fold the
operations computing 0-based minimum positions and counts, then render the
1-based header, with the old (new) start forced to 0 when the old (new)
count is 0. -/
def buildHunkString (ops : List DiffOp) : Option Str :=
  if ops.isEmpty then none else
  let acc := ops.foldl (fun (acc : HunkAcc) op =>
    match op.type with
    | .keep =>
      { acc with
        oldStart := match op.oldIdx with | none => acc.oldStart | some i => optMin acc.oldStart i
        newStart := match op.newIdx with | none => acc.newStart | some i => optMin acc.newStart i
        oldCount := acc.oldCount + 1
        newCount := acc.newCount + 1
        lines := acc.lines ++ [' ' :: op.line] }
    | .remove =>
      { acc with
        oldStart := match op.oldIdx with | none => acc.oldStart | some i => optMin acc.oldStart i
        oldCount := acc.oldCount + 1
        lines := acc.lines ++ ['-' :: op.line] }
    | .add =>
      { acc with
        newStart := match op.newIdx with | none => acc.newStart | some i => optMin acc.newStart i
        newCount := acc.newCount + 1
        lines := acc.lines ++ ['+' :: op.line] })
    ⟨none, none, 0, 0, []⟩
  let oldStart1 := match acc.oldStart with | none => 1 | some v => v + 1
  let newStart1 := match acc.newStart with | none => 1 | some v => v + 1
  let oldStart2 := if acc.oldCount = 0 then 0 else oldStart1
  let newStart2 := if acc.newCount = 0 then 0 else newStart1
  some (renderHunkHeader oldStart2 acc.oldCount (newStart2 : Int) acc.newCount []
    ++ '\n' :: joinNL acc.lines)

/-- The look-ahead of `buildHunksFromDiff`: the first index `j` with
`i < j ≤ i + 2 * contextLines` (and `j` in range) holding a non-keep
operation, or -1. -/
def findNextChange (ops : List DiffOp) (i ctx : Nat) : Int :=
  match (List.range' (i + 1) (min ops.length (i + ctx * 2 + 1) - (i + 1))).find?
      (fun j => !((ops.getD j default).type == DiffOpType.keep)) with
  | some j => (j : Int)
  | none => -1

/-- Loop state of `buildHunksFromDiff` (`hunkStart` is -1 when no hunk is
open, as in the source). -/
structure HunkBuildState where
  hunks : List Str
  hunkStart : Int
  hunkOps : List DiffOp
deriving Repr, DecidableEq, Inhabited

/-- One iteration of the hunk-grouping loop of `buildHunksFromDiff` (git.ts
lines 693-738) at index `i`. -/
def hunkBuildStep (ops : List DiffOp) (ctx : Nat) (st : HunkBuildState) (i : Nat) :
    HunkBuildState :=
  let op := ops.getD i default
  if !(op.type == DiffOpType.keep) then
    if st.hunkStart = -1 then
      let hs : Nat := (max 0 ((i : Int) - (ctx : Int))).toNat
      { hunks := st.hunks, hunkStart := (hs : Int),
        hunkOps := st.hunkOps
          ++ (List.range' hs (i - hs)).map (fun j => ops.getD j default) ++ [op] }
    else { st with hunkOps := st.hunkOps ++ [op] }
  else if st.hunkStart ≠ -1 then
    let nextChange := findNextChange ops i ctx
    if nextChange ≠ -1 ∧ nextChange - (i : Int) ≤ (ctx : Int) * 2 then
      { st with hunkOps := st.hunkOps ++ [op] }
    else
      let trail := ((List.range' i (min ops.length (i + ctx) - i)).map
        (fun j => ops.getD j default)).takeWhile (fun o => o.type == DiffOpType.keep)
      { hunks := st.hunks ++ (match buildHunkString (st.hunkOps ++ trail) with
          | none => []
          | some h => [h]),
        hunkStart := -1, hunkOps := [] }
  else st

/-- Translation of `buildHunksFromDiff` (git.ts lines 681-747); the unused
`oldLines`/`newLines` parameters of the source are omitted. -/
def buildHunksFromDiff (ops : List DiffOp) (ctx : Nat) : List Str :=
  let st := (List.range ops.length).foldl (hunkBuildStep ops ctx) ⟨[], -1, []⟩
  if st.hunkOps.isEmpty then st.hunks
  else st.hunks ++ (match buildHunkString st.hunkOps with
    | none => []
    | some h => [h])

/-- Translation of `generateUnifiedDiff` (git.ts lines 549-599). -/
def generateUnifiedDiff (filePath oldContent newContent : Str) (isNewFile : Bool)
    (contextLines : Nat) : Str :=
  let oldLines := splitNL oldContent
  let newLines := splitNL newContent
  let diff := computeLineDiff oldLines newLines
  if diff.isEmpty then [] else
  if !(diff.any (fun op => !(op.type == DiffOpType.keep))) then [] else
  let hunks := buildHunksFromDiff diff contextLines
  if hunks.isEmpty then [] else
  let parts :=
    (str "diff --git a/" ++ filePath ++ str " b/" ++ filePath)
      :: ((if isNewFile then
            [str "new file mode 100644", str "index 0000000..0000000", str "--- /dev/null"]
          else
            [str "index 0000000..0000000 100644", str "--- a/" ++ filePath])
        ++ (str "+++ b/" ++ filePath) :: hunks)
  joinNL parts ++ ['\n']

/-- Claim-side projection for C10: the lines of the keep and remove
operations, in order. -/
def keepRemoveLines (ops : List DiffOp) : List Str :=
  (ops.filter (fun op => !(op.type == DiffOpType.add))).map (fun op => op.line)

/-- Claim-side projection for C10: the lines of the keep and add
operations, in order. -/
def keepAddLines (ops : List DiffOp) : List Str :=
  (ops.filter (fun op => !(op.type == DiffOpType.remove))).map (fun op => op.line)

/-- Claim-side soundness predicate on a match list: starting indices are at
least the given bounds, matches are strictly increasing on both sides, in
range, and relate identical lines. -/
def SoundMatches (old nw : List Str) : List (Nat × Nat) → Nat → Int → Prop
  | [], _, _ => True
  | (oi, ni) :: rest, k, last =>
    k ≤ oi ∧ oi < old.length ∧ last < (ni : Int) ∧ ni < nw.length
      ∧ old.getD oi [] = nw.getD ni [] ∧ SoundMatches old nw rest (oi + 1) (ni : Int)

/-- The whitespace characters stripped by the JavaScript `trim` used in the
fixer (the ASCII ones; the exotic Unicode space characters never occur in
patch text). -/
def isJsWhitespace (c : Char) : Bool :=
  c == ' ' || c == '\t' || c == '\n' || c == '\r' || c == '\x0b' || c == '\x0c'

/-- Mirrors `s.trim()`. -/
def jsTrim (s : Str) : Str :=
  ((s.dropWhile isJsWhitespace).reverse.dropWhile isJsWhitespace).reverse

/-- Mirrors `replace(/\\n/g, '\n')`: left-to-right, non-overlapping
replacement of every literal backslash-n pair by a newline. -/
def unescapeBackslashN : Str → Str
  | [] => []
  | '\\' :: 'n' :: rest => '\n' :: unescapeBackslashN rest
  | c :: rest => c :: unescapeBackslashN rest

/-- The three auto-fixes of `validateAndFixPatch` (index.ts lines 457-469),
in source order: unescape literal backslash-n pairs when the text has them
but contains no real newline; ensure a trailing newline; trim surrounding
whitespace and re-append one newline. -/
def applyFixes (d : Str) : Str :=
  let f1 := if containsSub d (str "\\n") && !(containsSub d ['\n']) then
    unescapeBackslashN d else d
  let f2 := if ['\n'].isSuffixOf f1 then f1 else f1 ++ ['\n']
  jsTrim f2 ++ ['\n']

/-- Translation of `validateAndFixPatch` (index.ts lines 451-495): apply the
fixes, then run the three structural checks on the fixed text, collecting
error messages; the patch is valid when no error was collected.  Returns
(valid, fixed, errors); the warnings list of the source is always empty. -/
def validateAndFixPatch (d : Str) (index : Nat) : Bool × Str × List Str :=
  let fixed := applyFixes d
  let lines := splitNL fixed
  let err1 : List Str :=
    if (str "diff --git").isPrefixOf (lines.headD []) then []
    else [str "Patch " ++ natToStr (index + 1) ++ str ": Missing \"diff --git\" header"]
  let err2 : List Str :=
    if (lines.any fun l => (str "--- ").isPrefixOf l)
        && (lines.any fun l => (str "+++ ").isPrefixOf l) then []
    else [str "Patch " ++ natToStr (index + 1) ++ str ": Missing --- or +++ file headers"]
  let err3 : List Str :=
    if lines.any (fun l => (str "@@").isPrefixOf l && containsSub (l.drop 2) (str "@@")) then []
    else [str "Patch " ++ natToStr (index + 1) ++ str ": Missing hunk header (@@ ... @@)"]
  let errors := err1 ++ err2 ++ err3
  (errors.isEmpty, fixed, errors)

/-- Claim-side validity predicate, written from the specification: the
fixed text starts with `diff --git`, has a `--- ` line and a `+++ ` line,
and has a line beginning with `@@` containing a second `@@` from position
2 on. -/
def validPatchSpec (fixed : Str) : Prop :=
  (str "diff --git").isPrefixOf fixed = true
  ∧ (∃ l ∈ splitNL fixed, (str "--- ").isPrefixOf l = true)
  ∧ (∃ l ∈ splitNL fixed, (str "+++ ").isPrefixOf l = true)
  ∧ (∃ l ∈ splitNL fixed, (str "@@").isPrefixOf l = true
      ∧ containsSub (l.drop 2) (str "@@") = true)

/-- `CommitPlan` record from the plan phase. -/
structure CommitPlan where
  id : Str
  message : Str
  description : Str
  contentHint : Str
  dependsOn : List Str
deriving Repr, DecidableEq, Inhabited

/-- `LineClassification` record from the classify phase; the line index is
an integer because it is copied verbatim from the oracle's JSON, which may
contain arbitrary numbers. -/
structure LineClassification where
  lineIndex : Int
  commitId : Str
deriving Repr, DecidableEq, Inhabited

/-- One entry of the oracle's parsed JSON array: the fields are `some` when
they passed the `typeof` checks (`line` a number, `commit` a string). -/
structure RawClassificationItem where
  line : Option Int
  commit : Option Str
deriving Repr, DecidableEq, Inhabited

/-- Outcome of the oracle call and JSON extraction in `classifyHunkLines`,
abstracting the transport: no response at all, a response without a JSON
array, a response whose array fails to parse, or the parsed entries. -/
inductive OracleResult where
  | noResponse
  | noArrayMatch
  | parseError
  | parsed (items : List RawClassificationItem)
deriving Repr, DecidableEq, Inhabited

/-- The addition/deletion line indices of a hunk's content, as collected at
the start of `classifyHunkLines`. -/
def changedLineIndices (content : Str) : List Nat :=
  (List.range (splitNL content).length).filter
    (fun i => (str "+").isPrefixOf ((splitNL content).getD i [])
      || (str "-").isPrefixOf ((splitNL content).getD i []))

/-- The keep-and-repair pass over the oracle's parsed items in
`classifyHunkLines` (the `results` accumulation of classify.ts lines
126-138): well-typed items are kept, unknown commit ids are replaced by
the first plan entry. -/
def oracleResults (commits : List CommitPlan) (items : List RawClassificationItem) :
    List LineClassification :=
  items.filterMap (fun item =>
    match item.line, item.commit with
    | some n, some s =>
      some (⟨n, if (commits.map (fun c => c.id)).contains s then s
                else (commits.headD default).id⟩ : LineClassification)
    | _, _ => none)

/-- Translation of `classifyHunkLines` (classify.ts lines 51-160).  The
fallback paths (no response, no array, parse error) assign every changed
line to the first plan entry; on a successful parse, well-typed items are
kept (with unknown commit ids replaced by the first plan entry, see
`oracleResults`) and any changed line left unclassified is appended,
assigned to the first plan entry. -/
def classifyHunkLines (hunk : ParsedHunk) (commits : List CommitPlan)
    (oracle : OracleResult) : List LineClassification :=
  if (changedLineIndices hunk.content).isEmpty then []
  else if commits.length = 1 then
    (changedLineIndices hunk.content).map
      (fun (idx : Nat) => ⟨(idx : Int), (commits.headD default).id⟩)
  else
    match oracle with
    | .noResponse =>
      (changedLineIndices hunk.content).map
        (fun (idx : Nat) => ⟨(idx : Int), (commits.headD default).id⟩)
    | .noArrayMatch =>
      (changedLineIndices hunk.content).map
        (fun (idx : Nat) => ⟨(idx : Int), (commits.headD default).id⟩)
    | .parseError =>
      (changedLineIndices hunk.content).map
        (fun (idx : Nat) => ⟨(idx : Int), (commits.headD default).id⟩)
    | .parsed items =>
      oracleResults commits items
        ++ (changedLineIndices hunk.content).filterMap (fun (idx : Nat) =>
          if ((oracleResults commits items).map (fun r => r.lineIndex)).contains (idx : Int)
          then none
          else some ⟨(idx : Int), (commits.headD default).id⟩)

/-- Test for the per-file segment boundary of the diff parser: a line
beginning the canonical `diff --git` marker. -/
def isDiffGitStart (l : Str) : Bool := (str "diff --git").isPrefixOf l

/-- Grouping of the diff lines into per-file segments, mirroring
`diff.split(/(?=^diff --git)/m).filter(Boolean)`: a new segment starts at
every line beginning with `diff --git`; the newline separating a segment
from the next marker line stays with the former segment, which therefore
carries a trailing empty line. -/
def splitFileSegmentsAux : List Str → List Str → List (List Str)
  | [], acc => [acc.reverse]
  | l :: rest, acc =>
    if isDiffGitStart l then
      if acc.isEmpty then splitFileSegmentsAux rest [l]
      else (acc.reverse ++ [[]]) :: splitFileSegmentsAux rest [l]
    else splitFileSegmentsAux rest (l :: acc)

def splitFileSegments (lines : List Str) : List (List Str) :=
  splitFileSegmentsAux lines []

/-- Greedy match of the file-path regex `^diff --git a\/(.+) b\/(.+)$`,
returning the second capture group (the `b/` side, used as the canonical
path): the largest split position with a ` b/` separator and nonempty
groups on both sides. -/
def matchDiffGit (line : Str) : Option Str :=
  if (str "diff --git a/").isPrefixOf line then
    let rest := line.drop 13
    match ((List.range rest.length).reverse).find?
        (fun i => decide (1 ≤ i) && (str " b/").isPrefixOf (rest.drop i)
          && !((rest.drop (i + 3)).isEmpty)) with
    | some i => some (rest.drop (i + 3))
    | none => none
  else none

/-- The leftmost `@@ -(\d+)` match of a hunk header line (`startLine` of a
parsed hunk); 0 when there is no match, as `lineMatch ? ... : 0`. -/
def extractStartLine : Str → Nat
  | [] => 0
  | c :: rest =>
    if (str "@@ -").isPrefixOf (c :: rest)
        && !(((c :: rest).drop 4).takeWhile Char.isDigit).isEmpty then
      digitsToNat (((c :: rest).drop 4).takeWhile Char.isDigit)
    else extractStartLine rest

/-- Join with an arbitrary separator (JavaScript `join`). -/
def joinWith (sep : Str) : List Str → Str
  | [] => []
  | [l] => l
  | l :: ls => l ++ sep ++ joinWith sep ls

/-- Translation of `generateHunkSummary` (git.ts lines 233-247). -/
def generateHunkSummary (content : Str) : Str :=
  let lines := splitNL content
  let added := (lines.filter (fun l => (str "+").isPrefixOf l)).take 3
  let removed := (lines.filter (fun l => (str "-").isPrefixOf l)).take 3
  let parts : List Str :=
    (if added.isEmpty then []
     else ['+' :: (joinWith (str ", ") (added.map (fun l => jsTrim (l.drop 1)))).take 50])
      ++ (if removed.isEmpty then []
     else ['-' :: (joinWith (str ", ") (removed.map (fun l => jsTrim (l.drop 1)))).take 50])
  let j := joinWith (str " / ") parts
  if j.isEmpty then str "(context only)" else j

/-- The hunk regions of one file segment: each line beginning with `@@`
starts a hunk whose content runs up to the next such line (lines before the
first marker belong to no hunk). -/
def hunkRegionsFuel : Nat → List Str → List (Str × List Str)
  | 0, _ => []
  | _, [] => []
  | fuel + 1, l :: rest =>
    if (str "@@").isPrefixOf l then
      (l, rest.takeWhile (fun x => !((str "@@").isPrefixOf x)))
        :: hunkRegionsFuel fuel (rest.dropWhile (fun x => !((str "@@").isPrefixOf x)))
    else hunkRegionsFuel fuel rest

def hunkRegions (ls : List Str) : List (Str × List Str) :=
  hunkRegionsFuel ls.length ls

/-- Construction of one `ParsedHunk` record from its region. -/
def mkParsedHunk (hid : Nat) (fp header : Str) (contentLines : List Str) : ParsedHunk :=
  let content := joinNL contentLines
  { id := hid, filePath := fp, header := header, content := content,
    fullHunk := header ++ '\n' :: content,
    startLine := extractStartLine header,
    summary := generateHunkSummary content }

/-- Per-segment loop of `parseDiffIntoHunks`, threading the global hunk id
counter: segments whose first line fails the `diff --git` regex are
skipped, the file header runs up to the `+++` line (index 0 when absent),
and files without hunks are dropped. -/
def parseSegments : List (List Str) → Nat → List ParsedFileDiff
  | [], _ => []
  | seg :: rest, hid =>
    match matchDiffGit (seg.headD []) with
    | none => parseSegments rest hid
    | some fp =>
      let headerEndIndex := ((List.range seg.length).find?
        (fun i => (str "+++").isPrefixOf (seg.getD i []))).getD 0
      let fileHeader := joinNL (seg.take (headerEndIndex + 1))
      let regions := hunkRegions (seg.drop (headerEndIndex + 1))
      let hunks := regions.enum.map (fun rk => mkParsedHunk (hid + rk.1) fp rk.2.1 rk.2.2)
      if hunks.isEmpty then parseSegments rest hid
      else { filePath := fp, fileHeader := fileHeader, hunks := hunks }
        :: parseSegments rest (hid + regions.length)

/-- Translation of `parseDiffIntoHunks` (git.ts lines 147-228). -/
def parseDiffIntoHunks (diff : Str) : List ParsedFileDiff :=
  parseSegments (splitFileSegments (splitNL diff)) 0

/-- Translation of `parseDiffWithLines` (git.ts lines 325-361). -/
def parseDiffWithLines (diff : Str) : ParsedDiffWithLines :=
  parseDiffWithLinesOf (parseDiffIntoHunks diff)

/-- Concrete context-only diff for C9: one file, one hunk with only context
lines. -/
def ctxOnlyDiff : Str :=
  str "diff --git a/x b/x\nindex 1110000..2220000 100644\n--- a/x\n+++ b/x\n@@ -1,2 +1,2 @@\n a\n b"

end GitFission

namespace GitFission

/-! ## Theorems -/

/-- Helper: the offset loop of `rebuildPatchFromHunks`, characterised by a
prefix sum.  When every selected hunk header parses, the `i`-th emitted part
keeps old-start, old-count and new-count from the original header and its
new-start is the old-start plus the initial offset plus the net deltas of
the parts before it. -/
theorem rebuildHunksLoop_getD (hs : List ParsedHunk) (hhs : List HunkHeader)
    (hparse : hs.map (fun h => parseHunkHeader h.header) = hhs.map some) :
    ∀ (off : Int) (i : Nat), i < hs.length →
      (rebuildHunksLoop hs off).getD i [] =
        renderHunkHeader (hhs.getD i default).oldStart (hhs.getD i default).oldCount
          (((hhs.getD i default).oldStart : Int) + (off + ((hhs.take i).map hunkNetDelta).sum))
          (hhs.getD i default).newCount (hhs.getD i default).suffix
          ++ '\n' :: (hs.getD i default).content := by
  induction hs generalizing hhs with
  | nil => intro off i hi; simp at hi
  | cons h t ih =>
    cases hhs with
    | nil => simp at hparse
    | cons hh ths =>
      simp only [List.map_cons, List.cons.injEq] at hparse
      obtain ⟨hhead, htail⟩ := hparse
      intro off i hi
      cases i with
      | zero =>
        simp [rebuildHunksLoop, hhead, List.getD]
      | succ j =>
        have hj : j < t.length := by simpa using hi
        have := ih ths htail (off + hunkNetDelta hh) j hj
        simp only [rebuildHunksLoop, hhead]
        simp only [List.getD_cons_succ]
        rw [this]
        have harith : off + hunkNetDelta hh + ((ths.take j).map hunkNetDelta).sum
            = off + (((hh :: ths).take (j + 1)).map hunkNetDelta).sum := by
          simp [List.take_succ_cons]
          ring
        rw [harith]

/-- C1.  Hunk-level reconstruction offset correctness: for any parsed files
and any set of selected hunk ids, `rebuildPatchFromHunks` (through its
per-file loop `rebuildHunksLoop` over `selectedHunks`) leaves each emitted
hunk's old-start, old-count and new-count unchanged from the original
header, and sets its new-start to old-start plus the running sum of
(new-count - old-count) over the hunks selected into the same output patch
that precede it in the same file; skipped hunks contribute nothing. -/
theorem hunk_level_offset_correctness (file : ParsedFileDiff) (hunkIds : List Nat)
    (hhs : List HunkHeader)
    (hparse : (selectedHunks file hunkIds).map (fun h => parseHunkHeader h.header) = hhs.map some)
    (i : Nat) (hi : i < (selectedHunks file hunkIds).length) :
    (rebuildHunksLoop (selectedHunks file hunkIds) 0).getD i [] =
      renderHunkHeader (hhs.getD i default).oldStart (hhs.getD i default).oldCount
        (((hhs.getD i default).oldStart : Int) + ((hhs.take i).map hunkNetDelta).sum)
        (hhs.getD i default).newCount (hhs.getD i default).suffix
        ++ '\n' :: ((selectedHunks file hunkIds).getD i default).content := by
  have := rebuildHunksLoop_getD (selectedHunks file hunkIds) hhs hparse 0 i hi
  simpa using this

/-- Helper: the filtering loop of `filterHunk` agrees with the claim-side
specification loop on well-formed hunk lines (every line classified, except
possibly a final empty split artifact). -/
theorem filterHunkLoop_eq_spec (sel : List Nat) :
    ∀ (lines : List Str) (idx total : Nat), idx + lines.length = total →
      (∀ j, j < lines.length →
        (lineKind (lines.getD j [])).isSome = true ∨ (lines.getD j [] = [] ∧ j = lines.length - 1)) →
      (filterHunkLoop total sel lines idx).1 = (filterHunkSpecLoop sel lines idx).1
      ∧ (filterHunkLoop total sel lines idx).2.1 = (filterHunkSpecLoop sel lines idx).2.1
      ∧ (filterHunkLoop total sel lines idx).2.2.1 = (filterHunkSpecLoop sel lines idx).2.2
  | [], idx, total, _, _ => by simp [filterHunkLoop, filterHunkSpecLoop]
  | line :: rest, idx, total, hinv, hwf => by
    have hrest : ∀ j, j < rest.length →
        (lineKind (rest.getD j [])).isSome = true ∨ (rest.getD j [] = [] ∧ j = rest.length - 1) := by
      intro j hj
      have h := hwf (j + 1) (by simp only [List.length_cons]; omega)
      simp only [List.getD_cons_succ, List.length_cons, Nat.add_sub_cancel] at h
      rcases h with h | ⟨h1, h2⟩
      · exact Or.inl h
      · right
        refine ⟨h1, ?_⟩
        omega
    have hinv2 : (idx + 1) + rest.length = total := by
      simp only [List.length_cons] at hinv
      omega
    have ih := filterHunkLoop_eq_spec sel rest (idx + 1) total hinv2 hrest
    simp only [filterHunkLoop, filterHunkSpecLoop]
    by_cases hart : line = [] ∧ idx = total - 1
    · have hk : lineKind line = none := by
        rw [hart.1]
        decide
      rw [if_pos hart, hk]
      exact ih
    · rw [if_neg hart]
      by_cases hp : (str "+").isPrefixOf line = true
      · have hk : lineKind line = some .addition := by simp [lineKind, hp]
        rw [hk]
        simp only [hp, if_true]
        by_cases hsel : sel.contains idx = true
        · simp only [hsel, if_true, filterSpecLine, specOldContrib, specNewContrib]
          refine ⟨by rw [ih.1], by omega, by omega⟩
        · simp only [Bool.not_eq_true] at hsel
          simp only [hsel, Bool.false_eq_true, if_false, filterSpecLine, specOldContrib,
            specNewContrib]
          refine ⟨ih.1, by omega, by omega⟩
      · simp only [Bool.not_eq_true] at hp
        by_cases hm : (str "-").isPrefixOf line = true
        · have hk : lineKind line = some .deletion := by simp [lineKind, hp, hm]
          rw [hk]
          simp only [hp, Bool.false_eq_true, if_false, hm, if_true]
          by_cases hsel : sel.contains idx = true
          · simp only [hsel, if_true, filterSpecLine, specOldContrib, specNewContrib]
            refine ⟨by rw [ih.1], by omega, by omega⟩
          · simp only [Bool.not_eq_true] at hsel
            simp only [hsel, Bool.false_eq_true, if_false, filterSpecLine, specOldContrib,
              specNewContrib]
            refine ⟨by rw [ih.1], by omega, by omega⟩
        · simp only [Bool.not_eq_true] at hm
          by_cases hs : (str " ").isPrefixOf line = true
          · have hk : lineKind line = some .context := by simp [lineKind, hp, hm, hs]
            rw [hk]
            simp only [hp, hm, Bool.false_eq_true, if_false, hs, if_true, filterSpecLine,
              specOldContrib, specNewContrib]
            refine ⟨by rw [ih.1], by omega, by omega⟩
          · simp only [Bool.not_eq_true] at hs
            exfalso
            have h0 := hwf 0 (by simp)
            simp only [List.getD_cons_zero, List.length_cons, Nat.add_sub_cancel] at h0
            rcases h0 with h0 | ⟨h1, h2⟩
            · rw [lineKind, hp, hm, hs] at h0
              simp at h0
            · have : rest.length = 0 := by omega
              exact hart ⟨h1, by omega⟩

/-- Helper: the inner filtering loop of `rebuildPatchFromLineIds` also
agrees with the claim-side specification loop on well-formed hunk lines. -/
theorem rebuildHunkLinesLoop_eq_spec (sel : List Nat) :
    ∀ (lines : List Str) (idx total : Nat), idx + lines.length = total →
      (∀ j, j < lines.length →
        (lineKind (lines.getD j [])).isSome = true ∨ (lines.getD j [] = [] ∧ j = lines.length - 1)) →
      rebuildHunkLinesLoop total sel lines idx = filterHunkSpecLoop sel lines idx
  | [], idx, total, _, _ => by simp [rebuildHunkLinesLoop, filterHunkSpecLoop]
  | line :: rest, idx, total, hinv, hwf => by
    have hrest : ∀ j, j < rest.length →
        (lineKind (rest.getD j [])).isSome = true ∨ (rest.getD j [] = [] ∧ j = rest.length - 1) := by
      intro j hj
      have h := hwf (j + 1) (by simp only [List.length_cons]; omega)
      simp only [List.getD_cons_succ, List.length_cons, Nat.add_sub_cancel] at h
      rcases h with h | ⟨h1, h2⟩
      · exact Or.inl h
      · right
        refine ⟨h1, ?_⟩
        omega
    have hinv2 : (idx + 1) + rest.length = total := by
      simp only [List.length_cons] at hinv
      omega
    have ih := rebuildHunkLinesLoop_eq_spec sel rest (idx + 1) total hinv2 hrest
    simp only [rebuildHunkLinesLoop, filterHunkSpecLoop]
    by_cases hart : line = [] ∧ idx = total - 1
    · have hk : lineKind line = none := by
        rw [hart.1]
        decide
      rw [if_pos hart, hk]
      exact ih
    · rw [if_neg hart]
      by_cases hp : (str "+").isPrefixOf line = true
      · have hk : lineKind line = some .addition := by simp [lineKind, hp]
        rw [hk]
        simp only [hp, if_true]
        by_cases hsel : sel.contains idx = true
        · simp only [hsel, if_true, filterSpecLine, specOldContrib, specNewContrib]
          rw [ih]
          refine Prod.ext rfl (Prod.ext ?_ ?_)
          · simp
            try omega
          · simp
            try omega
        · simp only [Bool.not_eq_true] at hsel
          simp only [hsel, Bool.false_eq_true, if_false, filterSpecLine, specOldContrib,
            specNewContrib]
          rw [ih]
          refine Prod.ext rfl (Prod.ext ?_ ?_)
          · simp
          · simp
      · simp only [Bool.not_eq_true] at hp
        by_cases hm : (str "-").isPrefixOf line = true
        · have hk : lineKind line = some .deletion := by simp [lineKind, hp, hm]
          rw [hk]
          simp only [hp, Bool.false_eq_true, if_false, hm, if_true]
          by_cases hsel : sel.contains idx = true
          · simp only [hsel, if_true, filterSpecLine, specOldContrib, specNewContrib]
            rw [ih]
            refine Prod.ext rfl (Prod.ext ?_ ?_)
            · simp
              try omega
            · simp
              try omega
          · simp only [Bool.not_eq_true] at hsel
            simp only [hsel, Bool.false_eq_true, if_false, filterSpecLine, specOldContrib,
              specNewContrib]
            rw [ih]
            refine Prod.ext rfl (Prod.ext ?_ ?_)
            · simp
              try omega
            · simp
              try omega
        · simp only [Bool.not_eq_true] at hm
          by_cases hs : (str " ").isPrefixOf line = true
          · have hk : lineKind line = some .context := by simp [lineKind, hp, hm, hs]
            rw [hk]
            have hcond : ((str " ").isPrefixOf line = true ∨ line = []) := Or.inl hs
            simp only [hp, hm, Bool.false_eq_true, if_false, hs, filterSpecLine,
              specOldContrib, specNewContrib, if_pos hcond]
            rw [ih]
            refine Prod.ext rfl (Prod.ext ?_ ?_)
            · simp
              try omega
            · simp
              try omega
          · simp only [Bool.not_eq_true] at hs
            exfalso
            have h0 := hwf 0 (by simp)
            simp only [List.getD_cons_zero, List.length_cons, Nat.add_sub_cancel] at h0
            rcases h0 with h0 | ⟨h1, h2⟩
            · rw [lineKind, hp, hm, hs] at h0
              simp at h0
            · have : rest.length = 0 := by omega
              exact hart ⟨h1, by omega⟩

/-- C2.  Line-level filtering semantics: on a hunk with a parseable header
and well-formed content lines, `filterHunk` (assemble phase) and the inner
filtering loop of `rebuildPatchFromLineIds` both produce exactly the
claim-side transformation: selected additions kept (new-count only),
unselected additions omitted, selected deletions kept (old-count only),
unselected deletions rewritten to a space-prefixed context line (both
counts), context lines kept verbatim (both counts), and the rebuilt header
carries exactly the derived counts. -/
theorem line_filtering_semantics (hunk : ParsedHunk) (sel : List Nat) (hh : HunkHeader)
    (hparse : parseHunkHeader hunk.header = some hh)
    (hwf : WellFormedHunkLines (splitNL hunk.content)) :
    (filterHunk hunk sel).header
      = renderHunkHeader hh.oldStart (filterHunkSpecLoop sel (splitNL hunk.content) 0).2.1
          (hh.newStart : Int) (filterHunkSpecLoop sel (splitNL hunk.content) 0).2.2 hh.suffix
    ∧ (filterHunk hunk sel).content
      = joinNL (filterHunkSpecLoop sel (splitNL hunk.content) 0).1
    ∧ rebuildHunkLinesLoop (splitNL hunk.content).length sel (splitNL hunk.content) 0
      = filterHunkSpecLoop sel (splitNL hunk.content) 0 := by
  have ha := filterHunkLoop_eq_spec sel (splitNL hunk.content) 0 (splitNL hunk.content).length
    (by omega) hwf
  have hb := rebuildHunkLinesLoop_eq_spec sel (splitNL hunk.content) 0 (splitNL hunk.content).length
    (by omega) hwf
  refine ⟨?_, ?_, hb⟩
  · simp only [filterHunk, hparse]
    rw [ha.2.1, ha.2.2]
  · simp only [filterHunk, hparse]
    rw [ha.1]

/-- Witness for C2 on a concrete hunk: header old 10,4 new 12,4, content
` a`, `-b`, `+c`, ` d`, selecting only the deletion (index 1): the kept
lines are ` a`, `-b`, ` d`, old-count 3 (context + deletion + context),
new-count 2 (two context lines), and both implementations agree. -/
theorem line_filtering_semantics_witness :
    (parseHunkHeader (str "@@ -10,4 +12,4 @@x") = some ⟨10, 4, 12, 4, str "x"⟩)
    ∧ WellFormedHunkLines (splitNL (str " a\n-b\n+c\n d"))
    ∧ (filterHunk
        { id := 0, filePath := str "f", header := str "@@ -10,4 +12,4 @@x",
          content := str " a\n-b\n+c\n d", fullHunk := [], startLine := 10, summary := [] }
        [1]).header = str "@@ -10,3 +12,2 @@x"
    ∧ (filterHunk
        { id := 0, filePath := str "f", header := str "@@ -10,4 +12,4 @@x",
          content := str " a\n-b\n+c\n d", fullHunk := [], startLine := 10, summary := [] }
        [1]).content = str " a\n-b\n d" := by
  refine ⟨by decide, by decide, ?_, ?_⟩
  · rw [(line_filtering_semantics
      { id := 0, filePath := str "f", header := str "@@ -10,4 +12,4 @@x",
        content := str " a\n-b\n+c\n d", fullHunk := [], startLine := 10, summary := [] }
      [1] ⟨10, 4, 12, 4, str "x"⟩ (by decide) (by decide)).1]
    decide
  · rw [(line_filtering_semantics
      { id := 0, filePath := str "f", header := str "@@ -10,4 +12,4 @@x",
        content := str " a\n-b\n+c\n d", fullHunk := [], startLine := 10, summary := [] }
      [1] ⟨10, 4, 12, 4, str "x"⟩ (by decide) (by decide)).2.1]
    decide

/-- Helper: the per-file hunk loop of `rebuildPatchFromLineIds`,
characterised by a prefix sum over the kept hunks: it emits exactly the
kept hunks, and the `i`-th emitted hunk is rendered with the original
old-start and the filtered counts, its new-start being old-start plus the
initial offset plus the net deltas of the previously emitted hunks. -/
theorem rebuildFileHunksLoop_getD (parsed : ParsedDiffWithLines) (lineIds : List Nat)
    (fp : Str) :
    ∀ (hunks : List ParsedHunk) (hunkIdx : Nat) (off : Int),
      (rebuildFileHunksLoop parsed lineIds fp hunks hunkIdx off).length
        = (keptHunksSpec parsed lineIds fp hunks hunkIdx).length
      ∧ ∀ i, i < (keptHunksSpec parsed lineIds fp hunks hunkIdx).length →
        (rebuildFileHunksLoop parsed lineIds fp hunks hunkIdx off).getD i []
          = renderHunkHeader
              ((keptHunksSpec parsed lineIds fp hunks hunkIdx).getD i default).1.oldStart
              ((keptHunksSpec parsed lineIds fp hunks hunkIdx).getD i default).2.2.1
              ((((keptHunksSpec parsed lineIds fp hunks hunkIdx).getD i default).1.oldStart : Int)
                + (off + (((keptHunksSpec parsed lineIds fp hunks hunkIdx).take i).map
                    keptDelta).sum))
              ((keptHunksSpec parsed lineIds fp hunks hunkIdx).getD i default).2.2.2
              ((keptHunksSpec parsed lineIds fp hunks hunkIdx).getD i default).1.suffix
            ++ '\n' :: joinNL ((keptHunksSpec parsed lineIds fp hunks hunkIdx).getD i default).2.1
  | [], hunkIdx, off => by simp [rebuildFileHunksLoop, keptHunksSpec]
  | hunk :: rest, hunkIdx, off => by
    cases hph : parseHunkHeader hunk.header with
    | none =>
      simp only [rebuildFileHunksLoop, keptHunksSpec, hph]
      exact rebuildFileHunksLoop_getD parsed lineIds fp rest (hunkIdx + 1) off
    | some hh =>
      by_cases hempty : (lineIdsSelection parsed lineIds fp hunkIdx).isEmpty = true
      · simp only [rebuildFileHunksLoop, keptHunksSpec, hph, hempty, if_true]
        exact rebuildFileHunksLoop_getD parsed lineIds fp rest (hunkIdx + 1) off
      · by_cases hchg : ((rebuildHunkLinesLoop (splitNL hunk.content).length
            (lineIdsSelection parsed lineIds fp hunkIdx) (splitNL hunk.content) 0).1.any
            (fun l => (str "+").isPrefixOf l || (str "-").isPrefixOf l)) = true
        · simp only [rebuildFileHunksLoop, keptHunksSpec, hph, hempty, Bool.false_eq_true,
            if_false, hchg, if_true]
          have ihoff := rebuildFileHunksLoop_getD parsed lineIds fp rest (hunkIdx + 1)
            (off + (((rebuildHunkLinesLoop (splitNL hunk.content).length
              (lineIdsSelection parsed lineIds fp hunkIdx) (splitNL hunk.content) 0).2.2 : Int)
              - ((rebuildHunkLinesLoop (splitNL hunk.content).length
              (lineIdsSelection parsed lineIds fp hunkIdx) (splitNL hunk.content) 0).2.1 : Int)))
          refine ⟨by simp [ihoff.1], ?_⟩
          intro i hi
          cases i with
          | zero => simp
          | succ j =>
            simp only [List.length_cons] at hi
            have hj : j < (keptHunksSpec parsed lineIds fp rest (hunkIdx + 1)).length := by omega
            simp only [List.getD_cons_succ, List.take_succ_cons, List.map_cons, List.sum_cons]
            rw [ihoff.2 j hj]
            have : off + (((rebuildHunkLinesLoop (splitNL hunk.content).length
                (lineIdsSelection parsed lineIds fp hunkIdx) (splitNL hunk.content) 0).2.2 : Int)
                - ((rebuildHunkLinesLoop (splitNL hunk.content).length
                (lineIdsSelection parsed lineIds fp hunkIdx) (splitNL hunk.content) 0).2.1 : Int))
                + (((keptHunksSpec parsed lineIds fp rest (hunkIdx + 1)).take j).map
                    keptDelta).sum
                = off + (keptDelta (hh, rebuildHunkLinesLoop (splitNL hunk.content).length
                    (lineIdsSelection parsed lineIds fp hunkIdx) (splitNL hunk.content) 0)
                  + (((keptHunksSpec parsed lineIds fp rest (hunkIdx + 1)).take j).map
                      keptDelta).sum) := by
              simp only [keptDelta]
              ring
            rw [this]
        · simp only [Bool.not_eq_true] at hchg
          simp only [rebuildFileHunksLoop, keptHunksSpec, hph, hempty, Bool.false_eq_true,
            if_false, hchg]
          exact rebuildFileHunksLoop_getD parsed lineIds fp rest (hunkIdx + 1) off

/-- C3 (amended).  Line-level new-start recomputation in
`rebuildPatchFromLineIds` (git.ts): for every kept hunk of a file, the
rebuilt header keeps the original old-start and sets its new-start to
old-start plus the running net delta (filtered new-count minus old-count)
accumulated only from hunks already emitted into this same target patch, in
original hunk order.  (The `filterHunk` assemble path instead reuses the
original header's new-start; see the counterexample.) -/
theorem line_level_newstart_recomputation (parsed : ParsedDiffWithLines) (lineIds : List Nat)
    (file : ParsedFileDiff) (i : Nat)
    (hi : i < (keptHunksSpec parsed lineIds file.filePath file.hunks 0).length) :
    (rebuildFileHunksLoop parsed lineIds file.filePath file.hunks 0 0).getD i []
      = renderHunkHeader
          ((keptHunksSpec parsed lineIds file.filePath file.hunks 0).getD i default).1.oldStart
          ((keptHunksSpec parsed lineIds file.filePath file.hunks 0).getD i default).2.2.1
          ((((keptHunksSpec parsed lineIds file.filePath file.hunks 0).getD i
              default).1.oldStart : Int)
            + (((keptHunksSpec parsed lineIds file.filePath file.hunks 0).take i).map
                keptDelta).sum)
          ((keptHunksSpec parsed lineIds file.filePath file.hunks 0).getD i default).2.2.2
          ((keptHunksSpec parsed lineIds file.filePath file.hunks 0).getD i default).1.suffix
        ++ '\n' :: joinNL
            ((keptHunksSpec parsed lineIds file.filePath file.hunks 0).getD i default).2.1 := by
  have h := (rebuildFileHunksLoop_getD parsed lineIds file.filePath file.hunks 0 0).2 i hi
  simpa using h

/-- Counterexample to C3 as stated: the assemble-phase line-level
reconstruction (`buildPatches` via `filterHunk`) keeps the ORIGINAL
header's new-start.  For a single commit selecting the deletion and
addition of `exHunkC3` (old-start 100, original new-start 106), the first
(and only) hunk emitted into the patch has new-start 106, although the
claim requires old-start plus the running delta, which is 100 + 0 = 100
for the first hunk of a patch. -/
theorem line_level_newstart_counterexample :
    (splitNL ((buildPatches [exFileC3] [exCommitC3]).getD 0 default).patch).getD 4 []
      = str "@@ -100,3 +106,3 @@"
    ∧ (parseHunkHeader
        ((splitNL ((buildPatches [exFileC3] [exCommitC3]).getD 0 default).patch).getD 4 [])).map
        (fun hh => (hh.oldStart, hh.newStart)) = some (100, 106)
    ∧ (106 : Nat) ≠ 100 + 0 := by
  refine ⟨by decide, by decide, by decide⟩

/-- Witness for the amended C3 on `exParsedC3`: both hunks are kept when
both added lines are selected, and the second kept hunk is emitted with
new-start 51 = 50 + (3 - 2). -/
theorem line_level_newstart_recomputation_witness :
    1 < (keptHunksSpec exParsedC3 [0, 1] exFileC3pos.filePath exFileC3pos.hunks 0).length
    ∧ (rebuildFileHunksLoop exParsedC3 [0, 1] exFileC3pos.filePath exFileC3pos.hunks 0 0).getD 1 []
        = str "@@ -50,2 +51,3 @@\n c\n+z\n d" := by
  refine ⟨by decide, ?_⟩
  rw [line_level_newstart_recomputation exParsedC3 [0, 1] exFileC3pos 1 (by decide)]
  decide

/-- Counterexample to C4 as stated: splitting the two added lines of the
new file `exNewFile` across two commits with the assemble phase
(`buildPatches` / `buildPatchFromHunks`) emits a `new file mode 100644`
creation header in BOTH patches, although the claim requires every patch
after the first to carry a modification header. -/
theorem new_file_split_counterexample :
    ((buildPatches [exNewFile] [exCommitN1, exCommitN2]).map (fun p =>
      (splitNL p.patch).contains (str "new file mode 100644"))) = [true, true] := by
  decide

/-- Helper: `containsSub` agrees with list infixhood. -/
theorem containsSub_iff (hay pat : Str) : containsSub hay pat = true ↔ pat <:+: hay := by
  constructor
  · intro h
    rcases List.any_eq_true.mp h with ⟨i, _, hp⟩
    rcases List.isPrefixOf_iff_prefix.mp hp with ⟨t, ht⟩
    exact ⟨hay.take i, t, by rw [List.append_assoc, ht, List.take_append_drop]⟩
  · rintro ⟨s, t, rfl⟩
    apply List.any_eq_true.mpr
    refine ⟨s.length, List.mem_range.mpr ?_, ?_⟩
    · simp [List.length_append]
      omega
    · apply List.isPrefixOf_iff_prefix.mpr
      rw [List.append_assoc, List.drop_left]
      exact ⟨t, rfl⟩

/-- Helper: splitting never returns the empty list of pieces. -/
theorem splitNL_ne_nil (s : Str) : splitNL s ≠ [] := by
  cases s with
  | nil => simp [splitNL]
  | cons c cs =>
    by_cases hc : c = '\n'
    · simp [splitNL, hc]
    · simp [splitNL, hc]

/-- Helper: no piece produced by `splitNL` contains a newline. -/
theorem nl_not_mem_splitNL (s : Str) : ∀ l ∈ splitNL s, '\n' ∉ l := by
  induction s with
  | nil =>
    intro l hl
    simp [splitNL] at hl
    subst hl
    simp
  | cons c cs ih =>
    intro l hl
    by_cases hc : c = '\n'
    · simp only [splitNL, if_pos hc] at hl
      rcases List.mem_cons.mp hl with rfl | hl
      · simp
      · exact ih l hl
    · simp only [splitNL, if_neg hc] at hl
      rcases List.mem_cons.mp hl with rfl | hl
      · intro hmem
        rcases List.mem_cons.mp hmem with heq | hmem
        · exact hc heq.symm
        · cases h : splitNL cs with
          | nil => rw [h] at hmem; simp at hmem
          | cons l0 ls =>
            rw [h] at hmem
            simp only [List.headD_cons] at hmem
            exact ih l0 (h ▸ List.mem_cons_self _ _) hmem
      · cases h : splitNL cs with
        | nil => rw [h] at hl; simp at hl
        | cons l0 ls =>
          rw [h] at hl
          simp only [List.tail_cons] at hl
          exact ih l (h ▸ List.mem_cons_of_mem _ hl)

/-- Helper: splitting a newline-free run followed by a newline peels off the
run as the first piece. -/
theorem splitNL_append_cons (a z : Str) (ha : '\n' ∉ a) :
    splitNL (a ++ '\n' :: z) = a :: splitNL z := by
  induction a with
  | nil => simp [splitNL]
  | cons c a' ih =>
    have hc : c ≠ '\n' := fun h => ha (h ▸ List.mem_cons_self _ _)
    have ha' : '\n' ∉ a' := fun h => ha (List.mem_cons_of_mem _ h)
    simp only [List.cons_append, splitNL, if_neg hc]
    show (c :: (splitNL (a' ++ '\n' :: z)).headD []) :: (splitNL (a' ++ '\n' :: z)).tail
        = (c :: a') :: splitNL z
    rw [ih ha']
    simp

/-- Helper: a newline-free text splits into a single piece. -/
theorem splitNL_no_nl (a : Str) (ha : '\n' ∉ a) : splitNL a = [a] := by
  induction a with
  | nil => simp [splitNL]
  | cons c a' ih =>
    have hc : c ≠ '\n' := fun h => ha (h ▸ List.mem_cons_self _ _)
    have ha' : '\n' ∉ a' := fun h => ha (List.mem_cons_of_mem _ h)
    simp only [splitNL, if_neg hc, ih ha']
    simp

/-- Helper: splitting is a left inverse of joining for nonempty lists of
newline-free lines. -/
theorem splitNL_joinNL : ∀ (ls : List Str), ls ≠ [] → (∀ l ∈ ls, '\n' ∉ l) →
    splitNL (joinNL ls) = ls
  | [], h, _ => absurd rfl h
  | [l], _, h => by
    simpa [joinNL] using splitNL_no_nl l (h l (by simp))
  | l :: l' :: rest, _, h => by
    have hj : joinNL (l :: l' :: rest) = l ++ '\n' :: joinNL (l' :: rest) := rfl
    rw [hj, splitNL_append_cons l _ (h l (List.mem_cons_self _ _)),
      splitNL_joinNL (l' :: rest) (by simp) (fun x hx => h x (List.mem_cons_of_mem _ hx))]

/-- Helper: a piece of the splitting of a join is one of the joined lines or
the empty line. -/
theorem mem_splitNL_joinNL (ls : List Str) (h : ∀ l ∈ ls, '\n' ∉ l) (x : Str)
    (hx : x ∈ splitNL (joinNL ls)) : x ∈ ls ∨ x = [] := by
  cases ls with
  | nil =>
    right
    simp [joinNL, splitNL] at hx
    exact hx
  | cons l rest =>
    left
    rw [splitNL_joinNL (l :: rest) (by simp) h] at hx
    exact hx

/-- Helper: an infix of `a ++ c :: b` avoiding `c` is an infix of `a` or of
`b`. -/
theorem infix_append_cons (pat a b : Str) (c : Char) (hc : c ∉ pat)
    (h : pat <:+: a ++ c :: b) : pat <:+: a ∨ pat <:+: b := by
  obtain ⟨s, t, hst⟩ := h
  have hst' : s ++ (pat ++ t) = a ++ c :: b := by
    rw [← List.append_assoc]
    exact hst
  by_cases h1 : s.length + pat.length ≤ a.length
  · left
    have htake : ((s ++ pat) ++ t).take a.length = a := by
      rw [List.append_assoc, hst']
      exact List.take_left a (c :: b)
    have hlen : a.length = (s ++ pat).length + (a.length - s.length - pat.length) := by
      simp only [List.length_append]
      omega
    rw [hlen, List.take_append] at htake
    exact ⟨s, t.take (a.length - s.length - pat.length), htake⟩
  · by_cases h2 : a.length + 1 ≤ s.length
    · right
      have hdrop : (s ++ (pat ++ t)).drop (a.length + 1) = b := by
        rw [hst']
        have heq : a ++ c :: b = (a ++ [c]) ++ b := by simp
        rw [heq]
        have hl : (a ++ [c]).length = a.length + 1 := by simp
        rw [← hl]
        exact List.drop_left _ b
      rw [List.drop_append_of_le_length h2] at hdrop
      exact ⟨s.drop (a.length + 1), t, by rw [List.append_assoc, hdrop]⟩
    · exfalso
      apply hc
      have hv : (a ++ c :: b)[a.length]? = some c := by
        rw [List.getElem?_append_right (Nat.le_refl _)]
        simp
      rw [← hst'] at hv
      rw [List.getElem?_append_right (by omega : s.length ≤ a.length)] at hv
      rw [List.getElem?_append_left (by omega)] at hv
      obtain ⟨hlt, rfl⟩ := List.getElem?_eq_some_iff.mp hv
      exact List.getElem_mem hlt

/-- Helper: every joined line is an infix of the join. -/
theorem mem_infix_joinNL : ∀ (ls : List Str) (l : Str), l ∈ ls → l <:+: joinNL ls
  | [], l, h => absurd h (List.not_mem_nil l)
  | [x], l, h => by
    simp only [List.mem_singleton] at h
    subst h
    exact List.infix_refl l
  | x :: y :: rest, l, h => by
    have hj : joinNL (x :: y :: rest) = x ++ '\n' :: joinNL (y :: rest) := rfl
    rcases List.mem_cons.mp h with rfl | h2
    · rw [hj]
      exact (List.prefix_append l ('\n' :: joinNL (y :: rest))).isInfix
    · have hrec := mem_infix_joinNL (y :: rest) l h2
      rw [hj]
      have hsuf : joinNL (y :: rest) <:+ x ++ '\n' :: joinNL (y :: rest) :=
        ⟨x ++ ['\n'], by simp⟩
      exact hrec.trans hsuf.isInfix

/-- Helper: a nonempty newline-free infix of a join is an infix of one of
the joined lines. -/
theorem infix_joinNL_imp (pat : Str) (hne : pat ≠ []) (hnl : '\n' ∉ pat) :
    ∀ (ls : List Str), pat <:+: joinNL ls → ∃ l ∈ ls, pat <:+: l
  | [], h => absurd (List.infix_nil.mp h) hne
  | [l], h => ⟨l, by simp, h⟩
  | l :: l' :: rest, h => by
    have hj : joinNL (l :: l' :: rest) = l ++ '\n' :: joinNL (l' :: rest) := rfl
    rw [hj] at h
    rcases infix_append_cons pat l (joinNL (l' :: rest)) '\n' hnl h with h1 | h2
    · exact ⟨l, List.mem_cons_self _ _, h1⟩
    · obtain ⟨x, hx, hpx⟩ := infix_joinNL_imp pat hne hnl (l' :: rest) h2
      exact ⟨x, List.mem_cons_of_mem _ hx, hpx⟩

/-- Helper: once the created-files set contains the path, the bookkeeping
step emits the converted modification header forever. -/
theorem resolveHeaderTrace_replicate (header fp : Str) (hnew : isNewFileHeader header = true) :
    ∀ (m : Nat) (s' : List Str), s'.contains fp = true →
      resolveHeaderTrace header fp (some s') m
        = List.replicate m (convertNewFileToModificationHeader header fp)
  | 0, s', _ => rfl
  | m + 1, s', hmem => by
    simp only [resolveHeaderTrace, resolveFileHeader, createdHas, hnew, hmem, if_true,
      List.replicate_succ]
    rw [resolveHeaderTrace_replicate header fp hnew m s' hmem]

/-- C4 (amended).  New-file split handling in `rebuildPatchFromLineIds`
(git.ts): with the created-files set threaded, a sequence of patches
touching the same new file keeps the creation header only in the first one;
every later patch has the header rewritten to a modification header whose
lines carry no creation marker (the creation-mode line is dropped, the
`--- /dev/null` line is replaced by `--- a/<path>`, `+++ ` lines are kept),
so the converted header no longer tests as a new-file header.  (The
assemble-path `buildPatchFromHunks` violates this; see the
counterexample.) -/
theorem new_file_split_handling (header fp : Str) (s : List Str) (n : Nat)
    (hnew : isNewFileHeader header = true)
    (hfresh : s.contains fp = false)
    (h1 : ∀ line ∈ splitNL header, containsSub line (str "new file mode") = true →
      (str "new file mode").isPrefixOf line = true)
    (h2 : ∀ line ∈ splitNL header, containsSub line (str "--- /dev/null") = true →
      line = str "--- /dev/null")
    (h3 : containsSub (str "--- a/" ++ fp) (str "new file mode") = false)
    (h4 : containsSub (str "--- a/" ++ fp) (str "--- /dev/null") = false)
    (hfp : '\n' ∉ fp) :
    resolveHeaderTrace header fp (some s) (n + 1)
      = header :: List.replicate n (convertNewFileToModificationHeader header fp)
    ∧ isNewFileHeader (convertNewFileToModificationHeader header fp) = false
    ∧ (∀ line ∈ splitNL (convertNewFileToModificationHeader header fp),
        (str "new file mode").isPrefixOf line = false ∧ line ≠ str "--- /dev/null")
    ∧ (∀ line ∈ splitNL header, (str "+++ ").isPrefixOf line = true →
        line ∈ splitNL (convertNewFileToModificationHeader header fp))
    ∧ (str "--- /dev/null" ∈ splitNL header →
        str "--- a/" ++ fp ∈ splitNL (convertNewFileToModificationHeader header fp)) := by
  have hfreeA : '\n' ∉ str "--- a/" ++ fp := by
    intro hmem
    rcases List.mem_append.mp hmem with h5 | h5
    · exact absurd h5 (by decide)
    · exact hfp h5
  have hmapped : ∀ l, l ∈ (splitNL header).filterMap (fun line =>
      if (str "new file mode").isPrefixOf line then none
      else if line == str "--- /dev/null" then some (str "--- a/" ++ fp)
      else some line) →
      (l = str "--- a/" ++ fp
        ∨ (l ∈ splitNL header ∧ (str "new file mode").isPrefixOf l = false
            ∧ (l == str "--- /dev/null") = false)) := by
    intro l hl
    obtain ⟨orig, horig, heq⟩ := List.mem_filterMap.mp hl
    by_cases hpre : (str "new file mode").isPrefixOf orig = true
    · simp [hpre] at heq
    · by_cases hdev : (orig == str "--- /dev/null") = true
      · simp only [Bool.not_eq_true] at hpre
        simp only [hpre, Bool.false_eq_true, if_false, hdev, if_true, Option.some.injEq] at heq
        exact Or.inl heq.symm
      · simp only [Bool.not_eq_true] at hpre hdev
        simp only [hpre, hdev, Bool.false_eq_true, if_false, Option.some.injEq] at heq
        exact Or.inr (heq ▸ ⟨horig, hpre, hdev⟩)
  have hfree : ∀ l ∈ (splitNL header).filterMap (fun line =>
      if (str "new file mode").isPrefixOf line then none
      else if line == str "--- /dev/null" then some (str "--- a/" ++ fp)
      else some line), '\n' ∉ l := by
    intro l hl
    rcases hmapped l hl with rfl | ⟨hmem, _, _⟩
    · exact hfreeA
    · exact nl_not_mem_splitNL header l hmem
  refine ⟨?_, ?_, ?_, ?_, ?_⟩
  · simp only [resolveHeaderTrace, resolveFileHeader, createdHas, hnew, hfresh, if_true,
      Bool.false_eq_true, if_false, createdAdd]
    rw [resolveHeaderTrace_replicate header fp hnew n (s ++ [fp])
      (List.contains_iff_exists_mem_beq.mpr ⟨fp, by simp, by simp⟩)]
  · rw [convertNewFileToModificationHeader]
    apply Bool.eq_false_iff.mpr
    intro habs
    rcases Bool.or_eq_true_iff.mp (by rwa [isNewFileHeader] at habs) with hsub | hsub
    · obtain ⟨l, hl, hinf⟩ := infix_joinNL_imp (str "new file mode") (by decide) (by decide) _
        ((containsSub_iff _ _).mp hsub)
      rcases hmapped l hl with rfl | ⟨hmem, hnp, _⟩
      · rw [(containsSub_iff _ _).mpr hinf] at h3
        exact absurd h3 (by decide)
      · have := h1 l hmem ((containsSub_iff _ _).mpr hinf)
        rw [this] at hnp
        exact absurd hnp (by simp)
    · obtain ⟨l, hl, hinf⟩ := infix_joinNL_imp (str "--- /dev/null") (by decide) (by decide) _
        ((containsSub_iff _ _).mp hsub)
      rcases hmapped l hl with rfl | ⟨hmem, _, hnd⟩
      · rw [(containsSub_iff _ _).mpr hinf] at h4
        exact absurd h4 (by decide)
      · have := h2 l hmem ((containsSub_iff _ _).mpr hinf)
        rw [this] at hnd
        simp at hnd
  · intro line hline
    rcases mem_splitNL_joinNL _ hfree line hline with hmem | rfl
    · rcases hmapped line hmem with rfl | ⟨_, hnp, hnd⟩
      · constructor
        · rfl
        · intro habs
          have hg : (str "--- a/" ++ fp).getD 4 ' ' = 'a' := rfl
          rw [habs] at hg
          exact absurd hg (by decide)
      · exact ⟨hnp, by simpa using hnd⟩
    · exact ⟨rfl, by decide⟩
  · intro line hline hplus
    obtain ⟨t, ht⟩ := List.isPrefixOf_iff_prefix.mp hplus
    have hnp : (str "new file mode").isPrefixOf line = false := by
      rw [← ht]
      rfl
    have hnd : (line == str "--- /dev/null") = false := by
      apply beq_eq_false_iff_ne.mpr
      intro habs
      have hg : line.getD 0 ' ' = '+' := by
        rw [← ht]
        rfl
      rw [habs] at hg
      exact absurd hg (by decide)
    have hmem : line ∈ (splitNL header).filterMap (fun line =>
        if (str "new file mode").isPrefixOf line then none
        else if line == str "--- /dev/null" then some (str "--- a/" ++ fp)
        else some line) := by
      apply List.mem_filterMap.mpr
      exact ⟨line, hline, by simp [hnp, hnd]⟩
    rw [convertNewFileToModificationHeader,
      splitNL_joinNL _ (by intro habs; rw [habs] at hmem; exact absurd hmem (by simp)) hfree]
    exact hmem
  · intro hdev
    have hmem : str "--- a/" ++ fp ∈ (splitNL header).filterMap (fun line =>
        if (str "new file mode").isPrefixOf line then none
        else if line == str "--- /dev/null" then some (str "--- a/" ++ fp)
        else some line) := by
      apply List.mem_filterMap.mpr
      refine ⟨str "--- /dev/null", hdev, ?_⟩
      have hnp : (str "new file mode").isPrefixOf (str "--- /dev/null") = false := by decide
      simp [hnp]
    rw [convertNewFileToModificationHeader,
      splitNL_joinNL _ (by intro habs; rw [habs] at hmem; exact absurd hmem (by simp)) hfree]
    exact hmem

/-- Witness for the amended C4: a concrete creation header for path `w`,
threaded through three patches starting from an empty created-files set:
the first keeps the creation header, the later two carry the converted
modification header, which is no longer a new-file header. -/
theorem new_file_split_handling_witness :
    resolveHeaderTrace
        (str "diff --git a/w b/w\nnew file mode 100644\nindex 0000000..1110000\n--- /dev/null\n+++ b/w")
        (str "w") (some []) 3
      = str "diff --git a/w b/w\nnew file mode 100644\nindex 0000000..1110000\n--- /dev/null\n+++ b/w"
        :: List.replicate 2 (convertNewFileToModificationHeader
          (str "diff --git a/w b/w\nnew file mode 100644\nindex 0000000..1110000\n--- /dev/null\n+++ b/w")
          (str "w"))
    ∧ isNewFileHeader (convertNewFileToModificationHeader
        (str "diff --git a/w b/w\nnew file mode 100644\nindex 0000000..1110000\n--- /dev/null\n+++ b/w")
        (str "w")) = false
    ∧ convertNewFileToModificationHeader
        (str "diff --git a/w b/w\nnew file mode 100644\nindex 0000000..1110000\n--- /dev/null\n+++ b/w")
        (str "w")
      = str "diff --git a/w b/w\nindex 0000000..1110000\n--- a/w\n+++ b/w" := by
  have h := new_file_split_handling
    (str "diff --git a/w b/w\nnew file mode 100644\nindex 0000000..1110000\n--- /dev/null\n+++ b/w")
    (str "w") [] 2 (by decide) (by decide) (by decide) (by decide) (by decide) (by decide)
    (by decide)
  exact ⟨h.1, h.2.1, by decide⟩

/-- Helper: reading indices `p, ..., l.length - 1` through `getD` recovers
`l.drop p`. -/
theorem range'_map_getD (l : List Str) : ∀ (n p : Nat), n = l.length - p →
    (List.range' p n).map (fun i => l.getD i []) = l.drop p := by
  intro n
  induction n with
  | zero =>
    intro p h
    have : l.drop p = [] := List.drop_eq_nil_iff.mpr (by omega)
    rw [this]
    rfl
  | succ m ih =>
    intro p h
    have hp : p < l.length := by omega
    rw [List.range'_succ p m 1, List.map_cons, ih (p + 1) (by omega),
      List.getD_eq_getElem l [] hp, List.drop_eq_getElem_cons hp]

/-- Helper: `l.drop p` decomposed at a later in-range index `q`. -/
theorem drop_decompose (l : List Str) : ∀ (m p q : Nat), m = q - p → p ≤ q → q < l.length →
    l.drop p = (List.range' p (q - p)).map (fun i => l.getD i [])
      ++ l.getD q [] :: l.drop (q + 1) := by
  intro m
  induction m with
  | zero =>
    intro p q h hpq hq
    have hpq2 : p = q := by omega
    subst hpq2
    have h0 : p - p = 0 := by omega
    rw [h0]
    simp only [List.range'_zero, List.map_nil, List.nil_append]
    rw [List.getD_eq_getElem l [] hq]
    exact List.drop_eq_getElem_cons hq
  | succ m ih =>
    intro p q h hpq hq
    have hp : p < l.length := by omega
    have h1 : q - p = (q - (p + 1)) + 1 := by omega
    rw [h1, List.range'_succ p _ 1, List.map_cons, List.cons_append,
      List.drop_eq_getElem_cons hp, ih (p + 1) q (by omega) (by omega) hq,
      List.getD_eq_getElem l [] hp]

/-- Helper: the starting bound of a sound match list can be relaxed. -/
theorem soundMatches_mono (old nw : List Str) :
    ∀ (ms : List (Nat × Nat)) (k k' : Nat) (last : Int), k ≤ k' →
      SoundMatches old nw ms k' last → SoundMatches old nw ms k last
  | [], _, _, _, _, _ => trivial
  | (_, _) :: _, _, _, _, hk, h =>
    ⟨Nat.le_trans hk h.1, h.2.1, h.2.2.1, h.2.2.2.1, h.2.2.2.2.1, h.2.2.2.2.2⟩

/-- Helper: the greedy matcher produces a sound match list: indices
increase strictly on both sides, stay in range, and matched lines are
identical. -/
theorem greedyMatchesAux_sound (old nw : List Str) :
    ∀ (s : List Str) (k : Nat) (matched : List Nat) (last : Int), s = old.drop k →
      SoundMatches old nw (greedyMatchesAux nw s k matched last) k last
  | [], _, _, _, _ => trivial
  | line :: rest, k, matched, last, hs => by
    have hk : k < old.length := by
      by_contra hk2
      rw [List.drop_eq_nil_iff.mpr (by omega)] at hs
      exact absurd hs (by simp)
    have hline : old.getD k [] = line := by
      have h1 : (old.drop k).head? = some line := by rw [← hs]; rfl
      rw [List.head?_drop] at h1
      simp [List.getD_eq_getElem?_getD, h1]
    have hrest : rest = old.drop (k + 1) := by
      have h1 : (old.drop k).tail = rest := by rw [← hs]; rfl
      rw [List.tail_drop] at h1
      exact h1.symm
    simp only [greedyMatchesAux]
    cases hf : (positions nw line).find?
        (fun (j : Nat) => decide ((j : Int) > last) && !(matched.contains j)) with
    | none =>
      exact soundMatches_mono old nw _ k (k + 1) last (by omega)
        (greedyMatchesAux_sound old nw rest (k + 1) matched last hrest)
    | some j =>
      have hmem := List.mem_of_find?_eq_some hf
      have hpred := List.find?_some hf
      have hj1 : last < (j : Int) := by
        have := ((Bool.and_eq_true _ _).mp hpred).1
        exact of_decide_eq_true this
      have hjrange : j < nw.length := by
        have := List.mem_of_mem_filter hmem
        simpa using this
      have hjcontent : nw.getD j [] = line := by
        have := List.of_mem_filter hmem
        simpa using this
      refine ⟨Nat.le_refl k, hk, hj1, hjrange, by rw [hline, hjcontent], ?_⟩
      exact greedyMatchesAux_sound old nw rest (k + 1) (j :: matched) (j : Int) hrest

/-- Helper: both projections distribute over operation concatenation. -/
theorem keepRemoveLines_append (a b : List DiffOp) :
    keepRemoveLines (a ++ b) = keepRemoveLines a ++ keepRemoveLines b := by
  simp [keepRemoveLines]

theorem keepAddLines_append (a b : List DiffOp) :
    keepAddLines (a ++ b) = keepAddLines a ++ keepAddLines b := by
  simp [keepAddLines]

/-- Helper: projections of a single prepended operation, by its kind. -/
theorem keepRemoveLines_cons_remove (o n : Option Nat) (s : Str) (l : List DiffOp) :
    keepRemoveLines (⟨.remove, o, n, s⟩ :: l) = s :: keepRemoveLines l := by
  simp only [keepRemoveLines]
  rw [List.filter_cons_of_pos (by rfl), List.map_cons]

theorem keepRemoveLines_cons_add (o n : Option Nat) (s : Str) (l : List DiffOp) :
    keepRemoveLines (⟨.add, o, n, s⟩ :: l) = keepRemoveLines l := by
  simp only [keepRemoveLines]
  rw [List.filter_cons_of_neg (fun h => Bool.false_ne_true h)]

theorem keepRemoveLines_cons_keep (o n : Option Nat) (s : Str) (l : List DiffOp) :
    keepRemoveLines (⟨.keep, o, n, s⟩ :: l) = s :: keepRemoveLines l := by
  simp only [keepRemoveLines]
  rw [List.filter_cons_of_pos (by rfl), List.map_cons]

theorem keepAddLines_cons_remove (o n : Option Nat) (s : Str) (l : List DiffOp) :
    keepAddLines (⟨.remove, o, n, s⟩ :: l) = keepAddLines l := by
  simp only [keepAddLines]
  rw [List.filter_cons_of_neg (fun h => Bool.false_ne_true h)]

theorem keepAddLines_cons_add (o n : Option Nat) (s : Str) (l : List DiffOp) :
    keepAddLines (⟨.add, o, n, s⟩ :: l) = s :: keepAddLines l := by
  simp only [keepAddLines]
  rw [List.filter_cons_of_pos (by rfl), List.map_cons]

theorem keepAddLines_cons_keep (o n : Option Nat) (s : Str) (l : List DiffOp) :
    keepAddLines (⟨.keep, o, n, s⟩ :: l) = s :: keepAddLines l := by
  simp only [keepAddLines]
  rw [List.filter_cons_of_pos (by rfl), List.map_cons]

/-- Helper: unfolding of the gap-filling runs one op at a time. -/
theorem removeOps_succ (old : List Str) (p n : Nat) :
    removeOps old p (n + 1) = ⟨.remove, some p, none, old.getD p []⟩ :: removeOps old (p + 1) n := by
  rw [removeOps, removeOps, List.range'_succ p n 1, List.map_cons]

theorem addOps_succ (nw : List Str) (p n : Nat) :
    addOps nw p (n + 1) = ⟨.add, none, some p, nw.getD p []⟩ :: addOps nw (p + 1) n := by
  rw [addOps, addOps, List.range'_succ p n 1, List.map_cons]

/-- Helper: projections of the gap-filling operation runs. -/
theorem keepRemoveLines_removeOps (old : List Str) : ∀ (n p : Nat),
    keepRemoveLines (removeOps old p n) = (List.range' p n).map (fun i => old.getD i [])
  | 0, _ => rfl
  | n + 1, p => by
    rw [removeOps_succ, keepRemoveLines_cons_remove, keepRemoveLines_removeOps old n (p + 1),
      List.range'_succ p n 1, List.map_cons]

theorem keepAddLines_removeOps (old : List Str) : ∀ (n p : Nat),
    keepAddLines (removeOps old p n) = []
  | 0, _ => rfl
  | n + 1, p => by
    rw [removeOps_succ, keepAddLines_cons_remove, keepAddLines_removeOps old n (p + 1)]

theorem keepRemoveLines_addOps (nw : List Str) : ∀ (n p : Nat),
    keepRemoveLines (addOps nw p n) = []
  | 0, _ => rfl
  | n + 1, p => by
    rw [addOps_succ, keepRemoveLines_cons_add, keepRemoveLines_addOps nw n (p + 1)]

theorem keepAddLines_addOps (nw : List Str) : ∀ (n p : Nat),
    keepAddLines (addOps nw p n) = (List.range' p n).map (fun i => nw.getD i [])
  | 0, _ => rfl
  | n + 1, p => by
    rw [addOps_succ, keepAddLines_cons_add, keepAddLines_addOps nw n (p + 1),
      List.range'_succ p n 1, List.map_cons]

/-- Helper: on a sound match list, the op-construction loop reproduces the
old suffix on the keep/remove side and the new suffix on the keep/add
side. -/
theorem opsFromMatches_proj (old nw : List Str) :
    ∀ (ms : List (Nat × Nat)) (oldPtr newPtr : Nat) (last : Int),
      SoundMatches old nw ms oldPtr last → (newPtr : Int) = last + 1 →
      keepRemoveLines (opsFromMatches old nw ms oldPtr newPtr) = old.drop oldPtr
      ∧ keepAddLines (opsFromMatches old nw ms oldPtr newPtr) = nw.drop newPtr
  | [], oldPtr, newPtr, last, _, _ => by
    simp only [opsFromMatches]
    rw [keepRemoveLines_append, keepAddLines_append, keepRemoveLines_removeOps,
      keepAddLines_removeOps, keepRemoveLines_addOps, keepAddLines_addOps]
    constructor
    · rw [range'_map_getD old _ oldPtr rfl]
      simp
    · rw [range'_map_getD nw _ newPtr rfl]
      simp
  | (oi, ni) :: rest, oldPtr, newPtr, last, hsound, hlast => by
    obtain ⟨h1, h2, h3, h4, h5, h6⟩ := hsound
    have hni : newPtr ≤ ni := by omega
    have hmaxo : max oldPtr oi = oi := Nat.max_eq_right h1
    have hmaxn : max newPtr ni = ni := Nat.max_eq_right hni
    have ih := opsFromMatches_proj old nw rest (oi + 1) (ni + 1) (ni : Int) h6
      (by push_cast; ring)
    simp only [opsFromMatches, hmaxo, hmaxn]
    constructor
    · rw [keepRemoveLines_append, keepRemoveLines_append, keepRemoveLines_removeOps,
        keepRemoveLines_addOps, keepRemoveLines_cons_keep, ih.1]
      have hd := (drop_decompose old (oi - oldPtr) oldPtr oi rfl h1 h2).symm
      simpa using hd
    · rw [keepAddLines_append, keepAddLines_append, keepAddLines_removeOps, keepAddLines_addOps,
        keepAddLines_cons_keep, ih.2, h5]
      have hd := (drop_decompose nw (ni - newPtr) newPtr ni rfl hni h4).symm
      simpa using hd

/-- C10.  Greedy diff edit-script soundness: for every pair of line lists,
the operation list of `computeLineDiff` loses and duplicates nothing: its
keep/remove lines, in order, are exactly the old lines, and its keep/add
lines, in order, are exactly the new lines. -/
theorem greedy_diff_edit_script_soundness (old nw : List Str) :
    keepRemoveLines (computeLineDiff old nw) = old
    ∧ keepAddLines (computeLineDiff old nw) = nw := by
  have hsound : SoundMatches old nw (greedyMatches old nw) 0 (-1) := by
    rw [greedyMatches]
    exact greedyMatchesAux_sound old nw old 0 [] (-1) (List.drop_zero old).symm
  have h := opsFromMatches_proj old nw (greedyMatches old nw) 0 0 (-1) hsound (by norm_num)
  rw [computeLineDiff]
  simpa using h

/-- Helper: `contains` agrees with membership under a lawful equality
test. -/
theorem contains_iff_mem {α : Type} [BEq α] [LawfulBEq α] (l : List α) (a : α) :
    l.contains a = true ↔ a ∈ l := by
  rw [List.contains_iff_exists_mem_beq]
  simp

/-- Helper: on a strictly sorted list containing `k`, a predicate that holds
exactly on values at least `k` is first satisfied at `k`. -/
theorem find?_sorted_eq (p : Nat → Bool) (k : Nat) (hp : ∀ j, p j = true ↔ k ≤ j) :
    ∀ (L : List Nat), L.Pairwise (· < ·) → k ∈ L → L.find? p = some k
  | [], _, hk => absurd hk (List.not_mem_nil k)
  | a :: L, hs, hk => by
    by_cases ha : p a = true
    · have hak : k ≤ a := (hp a).mp ha
      have hka : a ≤ k := by
        rcases List.mem_cons.mp hk with heq | hk2
        · omega
        · exact Nat.le_of_lt (List.rel_of_pairwise_cons hs hk2)
      have hek : a = k := Nat.le_antisymm hka hak
      subst hek
      exact List.find?_cons_of_pos L ha
    · have hlt : a < k := by
        by_contra hge
        exact ha ((hp a).mpr (by omega))
      have hkL : k ∈ L := by
        rcases List.mem_cons.mp hk with rfl | hk2
        · omega
        · exact hk2
      rw [List.find?_cons_of_neg L ha]
      exact find?_sorted_eq p k hp L (List.Pairwise.of_cons hs) hkL

/-- Helper: self-diffing matches every line with itself, in order. -/
theorem greedyMatchesAux_self (l : List Str) :
    ∀ (n k : Nat) (matched : List Nat), n = l.length - k → (∀ m ∈ matched, m < k) →
      greedyMatchesAux l (l.drop k) k matched ((k : Int) - 1)
        = (List.range' k n).map (fun i => (i, i))
  | 0, k, matched, hn, _ => by
    rw [List.drop_eq_nil_iff.mpr (by omega)]
    rfl
  | n + 1, k, matched, hn, hmatched => by
    have hk : k < l.length := by omega
    rw [List.drop_eq_getElem_cons hk]
    simp only [greedyMatchesAux]
    have hfind : (positions l l[k]).find?
        (fun (j : Nat) => decide ((j : Int) > (k : Int) - 1) && !(matched.contains j))
        = some k := by
      apply find?_sorted_eq
      · intro j
        constructor
        · intro hj
          have := ((Bool.and_eq_true _ _).mp hj).1
          have := of_decide_eq_true this
          omega
        · intro hj
          apply (Bool.and_eq_true _ _).mpr
          constructor
          · exact decide_eq_true (by omega)
          · have : matched.contains j = false := by
              by_contra hc
              have : j ∈ matched := (contains_iff_mem matched j).mp
                (by revert hc; cases matched.contains j <;> simp)
              have := hmatched j this
              omega
            rw [this]
            rfl
      · exact (List.pairwise_lt_range l.length).filter _
      · apply List.mem_filter.mpr
        refine ⟨List.mem_range.mpr hk, ?_⟩
        simp [List.getD_eq_getElem?_getD, List.getElem?_eq_getElem hk]
    rw [hfind]
    show (k, k) :: greedyMatchesAux l (l.drop (k + 1)) (k + 1) (k :: matched) ((k : Nat) : Int)
      = (List.range' k (n + 1)).map (fun i => (i, i))
    rw [show ((k : Nat) : Int) = ((k + 1 : Nat) : Int) - 1 from by push_cast; ring]
    rw [greedyMatchesAux_self l n (k + 1) (k :: matched) (by omega)
      (by intro m hm
          rcases List.mem_cons.mp hm with rfl | hm2
          · omega
          · have := hmatched m hm2
            omega)]
    rw [List.range'_succ k n 1]
    rfl

/-- Helper: the op construction turns a full diagonal match into pure keep
operations. -/
theorem opsFromMatches_diag (l : List Str) : ∀ (n p : Nat), p + n = l.length →
    opsFromMatches l l ((List.range' p n).map (fun i => (i, i))) p p
      = (List.range' p n).map (fun i => (⟨.keep, some i, some i, l.getD i []⟩ : DiffOp))
  | 0, p, h => by
    simp only [List.range'_zero, List.map_nil, opsFromMatches]
    rw [show l.length - p = 0 from by omega]
    rfl
  | n + 1, p, h => by
    rw [List.range'_succ p n 1, List.map_cons, List.map_cons]
    simp only [opsFromMatches, Nat.sub_self, Nat.max_self]
    rw [opsFromMatches_diag l n (p + 1) (by omega)]
    rfl

/-- Helper: the line diff of a text against itself is all-keep. -/
theorem computeLineDiff_self (l : List Str) :
    computeLineDiff l l = (List.range' 0 l.length).map
      (fun i => (⟨.keep, some i, some i, l.getD i []⟩ : DiffOp)) := by
  rw [computeLineDiff, greedyMatches]
  have h1 : greedyMatchesAux l l 0 [] (-1)
      = (List.range' 0 (l.length - 0)).map (fun i => (i, i)) := by
    have h := greedyMatchesAux_self l (l.length - 0) 0 [] rfl (by simp)
    rw [List.drop_zero] at h
    have hc : ((0 : Nat) : Int) - 1 = (-1 : Int) := by norm_num
    rw [hc] at h
    exact h
  rw [h1, opsFromMatches_diag l (l.length - 0) 0 (by omega)]
  simp

/-- Helper: synthesizing a diff of a text against itself yields the empty
patch, for any path, creation flag and context width. -/
theorem generateUnifiedDiff_self_empty (fp x : Str) (isNew : Bool) (ctx : Nat) :
    generateUnifiedDiff fp x x isNew ctx = [] := by
  have hany : (computeLineDiff (splitNL x) (splitNL x)).any
      (fun op => !(op.type == DiffOpType.keep)) = false := by
    rw [computeLineDiff_self]
    apply List.any_eq_false.mpr
    intro op hop
    obtain ⟨i, _, rfl⟩ := List.mem_map.mp hop
    intro h
    exact Bool.false_ne_true h
  simp only [generateUnifiedDiff]
  by_cases hemp : (computeLineDiff (splitNL x) (splitNL x)).isEmpty = true
  · simp [hemp]
  · simp [hemp, hany]

/-- Counterexample to C6 as stated: `synthesize("", "a\n" + "b\n")` does
NOT return a hunk with old-start 0 and old-count 0: splitting the empty old
text yields one empty line, which is matched as context, so the emitted
hunk header is `@@ -1,1 +1,3 @@` (old-start 1, old-count 1), and the hunk is
not a pure insertion. -/
theorem synthesizer_base_case_counterexample :
    (parseHunkHeader
        ((splitNL (generateUnifiedDiff (str "f") [] (str "a\nb\n") false 3)).getD 4 [])).map
        (fun hh => (hh.oldStart, hh.oldCount)) = some (1, 1)
    ∧ ((1 : Nat), (1 : Nat)) ≠ ((0 : Nat), (0 : Nat)) := by
  exact ⟨by decide, by decide⟩

/-- C6 (amended).  Content-diff synthesizer base cases: for every text `x`,
`generateUnifiedDiff fp x x isNew ctx` returns the empty string; and
synthesizing from the empty old text to `a\n` + `b\n` returns a single hunk
whose header is `@@ -1,1 +1,3 @@` — the empty old text contributes one empty
context line, so old-start/old-count are 1/1, not the 0/0 the original
claim states. -/
theorem synthesizer_base_cases (fp x : Str) (isNew : Bool) (ctx : Nat) :
    generateUnifiedDiff fp x x isNew ctx = []
    ∧ generateUnifiedDiff (str "f") [] (str "a\nb\n") false 3
      = str "diff --git a/f b/f\nindex 0000000..0000000 100644\n--- a/f\n+++ b/f\n@@ -1,1 +1,3 @@\n+a\n+b\n \n" := by
  exact ⟨generateUnifiedDiff_self_empty fp x isNew ctx, by decide⟩

/-- Helper: the first piece of a split is the run up to the first
newline. -/
theorem splitNL_headD (s : Str) :
    (splitNL s).headD [] = s.takeWhile (fun c => !(c == '\n')) := by
  induction s with
  | nil => rfl
  | cons c cs ih =>
    by_cases hc : c = '\n'
    · subst hc
      simp [splitNL, List.takeWhile]
    · have hbc : (c == '\n') = false := beq_eq_false_iff_ne.mpr hc
      rw [List.headD_eq_head?_getD] at ih
      simp only [splitNL, if_neg hc, List.headD_cons, List.takeWhile]
      rw [hbc]
      simp [ih]

/-- Helper: a newline-free pattern is a prefix of a text exactly when it is
a prefix of the text's first line. -/
theorem isPrefixOf_takeWhile (p : Str) : ∀ (s : Str),
    (∀ c ∈ p, (c == '\n') = false) →
    p.isPrefixOf (s.takeWhile (fun c => !(c == '\n'))) = p.isPrefixOf s := by
  induction p with
  | nil => intro s _; simp [List.isPrefixOf]
  | cons a p' ih =>
    intro s hp
    have ha : (a == '\n') = false := hp a (List.mem_cons_self _ _)
    cases s with
    | nil => rfl
    | cons b s' =>
      by_cases hb : b = '\n'
      · subst hb
        simp only [List.takeWhile]
        rw [show (('\n' : Char) == '\n') = true from by decide]
        simp only [Bool.not_true]
        show (a :: p').isPrefixOf ([] : Str) = (a :: p').isPrefixOf ('\n' :: s')
        have hab : (a == '\n') = false := ha
        simp [List.isPrefixOf, hab]
      · have hbc : (b == '\n') = false := beq_eq_false_iff_ne.mpr hb
        simp only [List.takeWhile]
        rw [hbc]
        simp only [Bool.not_false]
        show (a :: p').isPrefixOf (b :: s'.takeWhile (fun c => !(c == '\n')))
          = (a :: p').isPrefixOf (b :: s')
        simp only [List.isPrefixOf]
        rw [ih s' (fun c hc => hp c (List.mem_cons_of_mem _ hc))]

/-- C7.  Validator/Fixer contract: `validateAndFixPatch` returns exactly
the fix pipeline's output as the fixed text (validation never mutates it),
and reports valid exactly when the fixed text starts with `diff --git`,
contains a `--- ` line and a `+++ ` line, and contains a line beginning
with `@@` with a second `@@` occurrence.  No check involves hunk counts:
the three checks above are the whole validation. -/
theorem validator_fixer_contract (d : Str) (index : Nat) :
    (validateAndFixPatch d index).2.1 = applyFixes d
    ∧ ((validateAndFixPatch d index).1 = true ↔ validPatchSpec (applyFixes d)) := by
  refine ⟨rfl, ?_⟩
  have hfirst : (str "diff --git").isPrefixOf ((splitNL (applyFixes d)).headD [])
      = (str "diff --git").isPrefixOf (applyFixes d) := by
    rw [splitNL_headD]
    exact isPrefixOf_takeWhile (str "diff --git") (applyFixes d) (by decide)
  simp only [validateAndFixPatch, validPatchSpec]
  constructor
  · intro hval
    by_cases h1 : ((str "diff --git").isPrefixOf ((splitNL (applyFixes d)).headD [])) = true
    · by_cases h2 : ((((splitNL (applyFixes d)).any fun l => (str "--- ").isPrefixOf l)
          && ((splitNL (applyFixes d)).any fun l => (str "+++ ").isPrefixOf l)) = true)
      · by_cases h3 : (((splitNL (applyFixes d)).any
            fun l => (str "@@").isPrefixOf l && containsSub (l.drop 2) (str "@@")) = true)
        · rw [Bool.and_eq_true] at h2
          obtain ⟨ha2, hb2⟩ := h2
          obtain ⟨l2, hl2, hp2⟩ := List.any_eq_true.mp ha2
          obtain ⟨l3, hl3, hp3⟩ := List.any_eq_true.mp hb2
          obtain ⟨l4, hl4, hp4⟩ := List.any_eq_true.mp h3
          rw [Bool.and_eq_true] at hp4
          obtain ⟨hp4a, hp4b⟩ := hp4
          exact ⟨hfirst.symm.trans h1, ⟨l2, hl2, hp2⟩, ⟨l3, hl3, hp3⟩,
            ⟨l4, hl4, hp4a, hp4b⟩⟩
        · rw [if_pos h1, if_pos h2, if_neg h3] at hval
          simp at hval
      · rw [if_pos h1, if_neg h2] at hval
        simp at hval
    · rw [if_neg h1] at hval
      simp at hval
  · rintro ⟨ha, ⟨l2, hl2, hp2⟩, ⟨l3, hl3, hp3⟩, ⟨l4, hl4, hp4a, hp4b⟩⟩
    have h1 : ((str "diff --git").isPrefixOf ((splitNL (applyFixes d)).headD [])) = true :=
      hfirst.trans ha
    have h2 : ((((splitNL (applyFixes d)).any fun l => (str "--- ").isPrefixOf l)
        && ((splitNL (applyFixes d)).any fun l => (str "+++ ").isPrefixOf l)) = true) := by
      rw [Bool.and_eq_true]
      exact ⟨List.any_eq_true.mpr ⟨l2, hl2, hp2⟩, List.any_eq_true.mpr ⟨l3, hl3, hp3⟩⟩
    have h3 : (((splitNL (applyFixes d)).any
        fun l => (str "@@").isPrefixOf l && containsSub (l.drop 2) (str "@@")) = true) :=
      List.any_eq_true.mpr ⟨l4, hl4, by rw [Bool.and_eq_true]; exact ⟨hp4a, hp4b⟩⟩
    rw [if_pos h1, if_pos h2, if_pos h3]
    rfl

/-- Helper: on every oracle failure path, and likewise for a single-commit
plan, `classifyHunkLines` maps each changed line index to the first plan
entry. -/
theorem classifyHunkLines_fallback (hunk : ParsedHunk) (commits : List CommitPlan)
    (oracle : OracleResult)
    (h : oracle = .noResponse ∨ oracle = .noArrayMatch ∨ oracle = .parseError
        ∨ commits.length = 1) :
    classifyHunkLines hunk commits oracle
      = (changedLineIndices hunk.content).map
          (fun (idx : Nat) => ⟨(idx : Int), (commits.headD default).id⟩) := by
  rw [classifyHunkLines.eq_def]
  by_cases hemp : (changedLineIndices hunk.content).isEmpty = true
  · rw [if_pos hemp, List.isEmpty_iff.mp hemp, List.map_nil]
  · rw [if_neg hemp]
    by_cases hone : commits.length = 1
    · rw [if_pos hone]
    · rw [if_neg hone]
      rcases h with rfl | rfl | rfl | h1
      · rfl
      · rfl
      · rfl
      · exact absurd h1 hone

/-- Helper: the successful-parse branch of `classifyHunkLines`, written with
`oracleResults`: the repaired items followed by the fallback entries for
changed lines the oracle left unclassified. -/
theorem classifyHunkLines_parsed (hunk : ParsedHunk) (commits : List CommitPlan)
    (items : List RawClassificationItem)
    (hemp : (changedLineIndices hunk.content).isEmpty = false)
    (hone : ¬ commits.length = 1) :
    classifyHunkLines hunk commits (.parsed items)
      = oracleResults commits items
        ++ (changedLineIndices hunk.content).filterMap (fun (i : Nat) =>
            if ((oracleResults commits items).map (fun r => r.lineIndex)).contains (i : Int)
            then none else some ⟨(i : Int), (commits.headD default).id⟩) := by
  rw [classifyHunkLines.eq_def]
  rw [if_neg (fun hh => Bool.false_ne_true (hemp.symm.trans hh)), if_neg hone]

/-- C8.  Classification fallback never drops lines: with a non-empty commit
plan, every oracle failure path assigns all changed line indices of the
hunk to the first plan entry; in every case each changed line index appears
in the returned classification; and every well-typed oracle item whose
commit id is unknown is recorded with the first plan entry instead. -/
theorem classification_fallback_total (hunk : ParsedHunk) (commits : List CommitPlan)
    (oracle : OracleResult) (_hne : commits ≠ []) :
    ((oracle = .noResponse ∨ oracle = .noArrayMatch ∨ oracle = .parseError) →
      classifyHunkLines hunk commits oracle
        = (changedLineIndices hunk.content).map
            (fun (idx : Nat) => ⟨(idx : Int), (commits.headD default).id⟩))
    ∧ (∀ idx ∈ changedLineIndices hunk.content,
        ∃ e ∈ classifyHunkLines hunk commits oracle, e.lineIndex = (idx : Int))
    ∧ (∀ items, oracle = .parsed items → commits.length ≠ 1 →
        changedLineIndices hunk.content ≠ [] →
        ∀ item ∈ items, ∀ n s, item.line = some n → item.commit = some s →
          (commits.map (fun c => c.id)).contains s = false →
          (⟨n, (commits.headD default).id⟩ : LineClassification)
            ∈ classifyHunkLines hunk commits oracle) := by
  refine ⟨?_, ?_, ?_⟩
  · intro hfall
    exact classifyHunkLines_fallback hunk commits oracle
      (hfall.imp id (fun h => h.imp id Or.inl))
  · intro idx hidx
    by_cases hone : commits.length = 1
    · refine ⟨⟨(idx : Int), (commits.headD default).id⟩, ?_, rfl⟩
      rw [classifyHunkLines_fallback hunk commits oracle (Or.inr (Or.inr (Or.inr hone)))]
      exact List.mem_map.mpr ⟨idx, hidx, rfl⟩
    · cases oracle with
      | noResponse =>
        refine ⟨⟨(idx : Int), (commits.headD default).id⟩, ?_, rfl⟩
        rw [classifyHunkLines_fallback hunk commits _ (Or.inl rfl)]
        exact List.mem_map.mpr ⟨idx, hidx, rfl⟩
      | noArrayMatch =>
        refine ⟨⟨(idx : Int), (commits.headD default).id⟩, ?_, rfl⟩
        rw [classifyHunkLines_fallback hunk commits _ (Or.inr (Or.inl rfl))]
        exact List.mem_map.mpr ⟨idx, hidx, rfl⟩
      | parseError =>
        refine ⟨⟨(idx : Int), (commits.headD default).id⟩, ?_, rfl⟩
        rw [classifyHunkLines_fallback hunk commits _ (Or.inr (Or.inr (Or.inl rfl)))]
        exact List.mem_map.mpr ⟨idx, hidx, rfl⟩
      | parsed items =>
        have hemp : (changedLineIndices hunk.content).isEmpty = false := by
          cases hc : changedLineIndices hunk.content with
          | nil => rw [hc] at hidx; exact absurd hidx (List.not_mem_nil idx)
          | cons a t => rfl
        rw [classifyHunkLines_parsed hunk commits items hemp hone]
        by_cases hin : ((oracleResults commits items).map
            (fun r => r.lineIndex)).contains (idx : Int) = true
        · obtain ⟨r, hr, hre⟩ := List.mem_map.mp ((contains_iff_mem _ _).mp hin)
          exact ⟨r, List.mem_append_left _ hr, hre⟩
        · simp only [Bool.not_eq_true] at hin
          refine ⟨⟨(idx : Int), (commits.headD default).id⟩, ?_, rfl⟩
          apply List.mem_append_right
          apply List.mem_filterMap.mpr
          refine ⟨idx, hidx, ?_⟩
          rw [hin]
          rfl
  · intro items hO hone hnonempty item hitem n s hn hs hunknown
    subst hO
    have hemp : (changedLineIndices hunk.content).isEmpty = false := by
      cases hc : changedLineIndices hunk.content with
      | nil => exact absurd hc hnonempty
      | cons a t => rfl
    rw [classifyHunkLines_parsed hunk commits items hemp hone]
    apply List.mem_append_left
    rw [oracleResults]
    apply List.mem_filterMap.mpr
    refine ⟨item, hitem, ?_⟩
    rw [hn, hs]
    show some (⟨n, if (commits.map (fun c => c.id)).contains s then s
                   else (commits.headD default).id⟩ : LineClassification)
      = some ⟨n, (commits.headD default).id⟩
    rw [hunknown]
    rfl

/-- Witness for C8: on a two-commit plan and a hunk `+a / b` with the
oracle failing to respond, every changed line is assigned to the first
plan entry. -/
theorem classification_fallback_total_witness :
    ([⟨str "c1", str "m1", str "d1", str "h1", []⟩,
      ⟨str "c2", str "m2", str "d2", str "h2", []⟩] : List CommitPlan) ≠ []
    ∧ classifyHunkLines
        { id := 0, filePath := str "x", header := str "@@ -1,2 +1,2 @@",
          content := str "+a\n b", fullHunk := str "@@", startLine := 1, summary := str "" }
        [⟨str "c1", str "m1", str "d1", str "h1", []⟩,
         ⟨str "c2", str "m2", str "d2", str "h2", []⟩] .noResponse
      = (changedLineIndices (str "+a\n b")).map
          (fun (idx : Nat) => ⟨(idx : Int), str "c1"⟩) := by
  refine ⟨by decide, ?_⟩
  have h := (classification_fallback_total
    { id := 0, filePath := str "x", header := str "@@ -1,2 +1,2 @@",
      content := str "+a\n b", fullHunk := str "@@", startLine := 1, summary := str "" }
    [⟨str "c1", str "m1", str "d1", str "h1", []⟩,
     ⟨str "c2", str "m2", str "d2", str "h2", []⟩] .noResponse (by decide)).1 (Or.inl rfl)
  simpa using h

/-- Helper: filtering a hunk whose content has no addition or deletion line
never reports a change. -/
theorem filterHunkLoop_no_changes (sel : List Nat) :
    ∀ (lines : List Str) (idx total : Nat),
      (∀ l ∈ lines, (str "+").isPrefixOf l = false ∧ (str "-").isPrefixOf l = false) →
      (filterHunkLoop total sel lines idx).2.2.2 = false
  | [], _, _, _ => rfl
  | line :: rest, idx, total, h => by
    have hrest := filterHunkLoop_no_changes sel rest (idx + 1) total
      (fun l hl => h l (List.mem_cons_of_mem _ hl))
    have hp := (h line (List.mem_cons_self _ _)).1
    have hm := (h line (List.mem_cons_self _ _)).2
    simp only [filterHunkLoop]
    by_cases hart : line = [] ∧ idx = total - 1
    · rw [if_pos hart]
      exact hrest
    · rw [if_neg hart]
      simp only [hp, hm, Bool.false_eq_true, if_false]
      by_cases hs : (str " ").isPrefixOf line = true
      · simp only [hs, if_true]
        exact hrest
      · simp only [Bool.not_eq_true] at hs
        simp only [hs, Bool.false_eq_true, if_false]
        exact hrest

/-- Counterexample to C9 as stated: the parser emits the context-only hunk
of `ctxOnlyDiff` instead of dropping it — its single emitted hunk has zero
addition lines and zero deletion lines. -/
theorem parser_context_only_counterexample :
    (parseDiffIntoHunks ctxOnlyDiff).map (fun f => f.hunks.map (fun h =>
      ((splitNL h.content).countP (fun l => (str "+").isPrefixOf l),
       (splitNL h.content).countP (fun l => (str "-").isPrefixOf l))))
      = [[(0, 0)]] := by
  decide

/-- C9 (amended).  The parser does not drop context-only hunks: it emits
them (with the summary `(context only)`, as on the concrete `ctxOnlyDiff`);
instead, the line-level reconstruction drops them, because `filterHunk`
reports no change for a hunk without addition or deletion lines, whatever
the selection. -/
theorem parser_keeps_context_only_hunks (hunk : ParsedHunk) (sel : List Nat)
    (hctx : ∀ l ∈ splitNL hunk.content,
      (str "+").isPrefixOf l = false ∧ (str "-").isPrefixOf l = false) :
    (filterHunk hunk sel).hasChanges = false
    ∧ parseDiffIntoHunks ctxOnlyDiff
      = [{ filePath := str "x",
           fileHeader := str "diff --git a/x b/x\nindex 1110000..2220000 100644\n--- a/x\n+++ b/x",
           hunks := [{ id := 0, filePath := str "x", header := str "@@ -1,2 +1,2 @@",
                       content := str " a\n b", fullHunk := str "@@ -1,2 +1,2 @@\n a\n b",
                       startLine := 1, summary := str "(context only)" }] }] := by
  constructor
  · rw [filterHunk]
    cases hph : parseHunkHeader hunk.header with
    | none => rfl
    | some hh =>
      exact filterHunkLoop_no_changes sel (splitNL hunk.content) 0
        (splitNL hunk.content).length hctx
  · decide

/-- Witness for the amended C9 on the context-only hunk of `ctxOnlyDiff`. -/
theorem parser_keeps_context_only_hunks_witness :
    (∀ l ∈ splitNL (str " a\n b"),
      (str "+").isPrefixOf l = false ∧ (str "-").isPrefixOf l = false)
    ∧ (filterHunk
        { id := 0, filePath := str "x", header := str "@@ -1,2 +1,2 @@",
          content := str " a\n b", fullHunk := str "@@ -1,2 +1,2 @@\n a\n b",
          startLine := 1, summary := str "(context only)" }
        [0, 1]).hasChanges = false := by
  refine ⟨by decide, ?_⟩
  exact (parser_keeps_context_only_hunks
    { id := 0, filePath := str "x", header := str "@@ -1,2 +1,2 @@",
      content := str " a\n b", fullHunk := str "@@ -1,2 +1,2 @@\n a\n b",
      startLine := 1, summary := str "(context only)" } [0, 1] (by decide)).1

/-- Witness for C1, on the spec's own example: selecting hunks H1 and H3
(ids 0 and 2) of `exFileC1` emits H3 with new-start 103 = 100 + 3. -/
theorem hunk_level_offset_correctness_witness :
    ((selectedHunks exFileC1 [0, 2]).map (fun h => parseHunkHeader h.header)
        = ([⟨10, 5, 10, 8, []⟩, ⟨100, 4, 106, 4, []⟩] : List HunkHeader).map some)
    ∧ 1 < (selectedHunks exFileC1 [0, 2]).length
    ∧ (rebuildHunksLoop (selectedHunks exFileC1 [0, 2]) 0).getD 1 []
        = str "@@ -100,4 +103,4 @@\n c" := by
  refine ⟨by decide, by decide, ?_⟩
  rw [hunk_level_offset_correctness exFileC1 [0, 2]
    [⟨10, 5, 10, 8, []⟩, ⟨100, 4, 106, 4, []⟩] (by decide) 1 (by decide)]
  decide

/-- Helper: containment distributes over append. -/
theorem contains_append (l l' : List Nat) (a : Nat) :
    (l ++ l').contains a = (l.contains a || l'.contains a) := by
  induction l with
  | nil => rfl
  | cons b t ih => simp [List.contains_cons, ih, Bool.or_assoc]

/-- Helper: a list with a member is not empty. -/
theorem isEmpty_false_of_mem {α : Type} (l : List α) (a : α) (h : a ∈ l) :
    l.isEmpty = false := by
  cases l with
  | nil => exact absurd h (List.not_mem_nil a)
  | cons b t => rfl

/-- Helper: filtering cannot introduce a member. -/
theorem contains_filter_false (l : List Nat) (p : Nat → Bool) (a : Nat)
    (h : l.contains a = false) : (l.filter p).contains a = false := by
  by_contra hc
  rw [Bool.not_eq_false] at hc
  have hm := List.mem_of_mem_filter ((contains_iff_mem _ _).mp hc)
  rw [(contains_iff_mem _ _).mpr hm] at h
  exact Bool.noConfusion h

/-- Helper: adding used indices under one hunk id leaves the entries of
other hunk ids unchanged. -/
theorem usedAdd_lookup_other (k hid : Nat) (s : List Nat) (hk : k ≠ hid) :
    ∀ (m : UsedMap), usedLookup (usedAdd m k s) hid = usedLookup m hid
  | [] => by
    simp [usedAdd, usedLookup, List.lookup, beq_eq_false_iff_ne.mpr (Ne.symm hk)]
  | (k', v) :: rest => by
    by_cases hk' : k' = k
    · subst hk'
      simp only [usedAdd, if_pos rfl]
      simp [usedLookup, List.lookup, beq_eq_false_iff_ne.mpr (Ne.symm hk)]
    · simp only [usedAdd, if_neg hk']
      by_cases hh : k' = hid
      · subst hh
        simp [usedLookup, List.lookup]
      · simp only [usedLookup, List.lookup, beq_eq_false_iff_ne.mpr (Ne.symm hh)]
        exact usedAdd_lookup_other k hid s hk rest

/-- Helper: adding used indices under a hunk id appends them to that id's
entry. -/
theorem usedAdd_lookup_same (k : Nat) (s : List Nat) :
    ∀ (m : UsedMap), usedLookup (usedAdd m k s) k = usedLookup m k ++ s
  | [] => by simp [usedAdd, usedLookup, List.lookup]
  | (k', v) :: rest => by
    by_cases hk' : k' = k
    · subst hk'
      simp only [usedAdd, if_pos rfl]
      simp [usedLookup, List.lookup]
    · simp only [usedAdd, if_neg hk']
      simp only [usedLookup, List.lookup, beq_eq_false_iff_ne.mpr (Ne.symm hk')]
      exact usedAdd_lookup_same k s rest

/-- Helper: counting an emitted hunk that matches. -/
theorem emitsOf_cons_pos (e : EmittedHunk) (es : List EmittedHunk) (hid i : Nat)
    (h : (e.hunkId == hid && e.selected.contains i) = true) :
    emitsOf (e :: es) hid i = emitsOf es hid i + 1 := by
  simp only [emitsOf, List.filter]
  rw [h]
  rfl

/-- Helper: skipping an emitted hunk that does not match. -/
theorem emitsOf_cons_neg (e : EmittedHunk) (es : List EmittedHunk) (hid i : Nat)
    (h : (e.hunkId == hid && e.selected.contains i) = false) :
    emitsOf (e :: es) hid i = emitsOf es hid i := by
  simp only [emitsOf, List.filter]
  rw [h]

/-- Helper: the per-commit count splits off its head pair. -/
theorem emitsOfCommit_cons (p : ParsedFileDiff × List EmittedHunk)
    (ps : List (ParsedFileDiff × List EmittedHunk)) (hid i : Nat) :
    emitsOfCommit (p :: ps) hid i = emitsOf p.2 hid i + emitsOfCommit ps hid i := by
  simp [emitsOfCommit]

/-- Helper: the trace count splits off its head commit. -/
theorem emitCount_cons (ct : CommitChanges × List (ParsedFileDiff × List EmittedHunk))
    (cts : List (CommitChanges × List (ParsedFileDiff × List EmittedHunk))) (hid i : Nat) :
    emitCount (ct :: cts) hid i = emitsOfCommit ct.2 hid i + emitCount cts hid i := by
  simp [emitCount]

/-- Helper: membership in a range selection comes from a range addressing
the hunk id. -/
theorem selOf_mem (ranges : List LineRange) (hid i : Nat)
    (h : i ∈ selOf ranges hid) :
    ∃ r ∈ ranges, r.hunkId = hid ∧ i ∈ expandRange r := by
  obtain ⟨l, hl, hil⟩ := List.mem_flatten.mp h
  obtain ⟨r, hr, rfl⟩ := List.mem_map.mp hl
  obtain ⟨hrr, hrid⟩ := List.mem_filter.mp hr
  exact ⟨r, hrr, by simpa using hrid, hil⟩

/-- Helper: a commit selecting nothing for a hunk selects nothing in any of
its file changes. -/
theorem commitSel_not_contains (c : CommitChanges) (hid i : Nat)
    (h : (commitSel c hid).contains i = false) :
    ∀ fc ∈ c.fileChanges, (selOf fc.ranges hid).contains i = false := by
  intro fc hfc
  by_contra hcon
  rw [Bool.not_eq_false] at hcon
  have hm : i ∈ commitSel c hid :=
    List.mem_flatMap.mpr ⟨fc, hfc, (contains_iff_mem _ _).mp hcon⟩
  rw [(contains_iff_mem _ _).mpr hm] at h
  exact Bool.noConfusion h

/-- Helper: a commit selecting an index for a hunk does so in one of its
file changes. -/
theorem commitSel_contains_exists (c : CommitChanges) (hid i : Nat)
    (h : (commitSel c hid).contains i = true) :
    ∃ fc ∈ c.fileChanges, (selOf fc.ranges hid).contains i = true := by
  obtain ⟨fc, hfc, hi⟩ := List.mem_flatMap.mp ((contains_iff_mem _ _).mp h)
  exact ⟨fc, hfc, (contains_iff_mem _ _).mpr hi⟩

/-- Helper: with pairwise-distinct file paths, the parser's per-path lookup
finds exactly the member file with that path. -/
theorem find?_filePath (fileH : ParsedFileDiff) :
    ∀ (files : List ParsedFileDiff),
      (files.map (fun f => f.filePath)).Nodup → fileH ∈ files →
      files.find? (fun f => f.filePath == fileH.filePath) = some fileH
  | [], _, hmem => absurd hmem (List.not_mem_nil _)
  | f :: rest, hnodup, hmem => by
    by_cases hp : f.filePath = fileH.filePath
    · rw [List.find?_cons_of_pos _ (by simp [hp])]
      rcases List.mem_cons.mp hmem with rfl | hmem'
      · rfl
      · exfalso
        have hpm : fileH.filePath ∈ rest.map (fun f => f.filePath) :=
          List.mem_map.mpr ⟨fileH, hmem', rfl⟩
        rw [← hp] at hpm
        exact (List.nodup_cons.mp hnodup).1 hpm
    · rw [List.find?_cons_of_neg _ (by simp [hp])]
      rcases List.mem_cons.mp hmem with rfl | hmem'
      · exact absurd rfl hp
      · exact find?_filePath fileH rest (List.nodup_cons.mp hnodup).2 hmem'

/-- Helper: globally distinct hunk ids restrict to each file. -/
theorem nodup_file_ids (files : List ParsedFileDiff) (fileH : ParsedFileDiff)
    (h2 : ((files.flatMap (fun f => f.hunks)).map (fun x => x.id)).Nodup)
    (hf : fileH ∈ files) : (fileH.hunks.map (fun x => x.id)).Nodup := by
  have hsub : fileH.hunks.Sublist (files.flatMap (fun f => f.hunks)) := by
    rw [List.flatMap_def]
    exact List.sublist_flatten_of_mem (List.mem_map.mpr ⟨fileH, hf, rfl⟩)
  exact h2.sublist (hsub.map (fun x => x.id))

/-- Unfolding equation of `processFileHunks` on a non-empty hunk list,
phrased with `hunkSel`. -/
theorem processFileHunks_cons (ranges : List LineRange) (hunk : ParsedHunk)
    (rest : List ParsedHunk) (used : UsedMap) :
    processFileHunks ranges (hunk :: rest) used
      = if (ranges.filter (fun r => r.hunkId == hunk.id)).isEmpty then
          processFileHunks ranges rest used
        else if (hunkSel ranges used hunk.id).isEmpty then
          processFileHunks ranges rest used
        else if (filterHunk hunk (hunkSel ranges used hunk.id)).hasChanges then
          (⟨hunk.id, hunkSel ranges used hunk.id, filterHunk hunk (hunkSel ranges used hunk.id)⟩
              :: (processFileHunks ranges rest
                    (usedAdd used hunk.id (hunkSel ranges used hunk.id))).1,
            (processFileHunks ranges rest
                (usedAdd used hunk.id (hunkSel ranges used hunk.id))).2)
        else processFileHunks ranges rest used := rfl

/-- Helper: the change flag of the filtering loop is monotone in the
tail. -/
theorem filterHunkLoop_flag_mono (total : Nat) (sel : List Nat) (line : Str)
    (rest : List Str) (idx : Nat)
    (h : (filterHunkLoop total sel rest (idx + 1)).2.2.2 = true) :
    (filterHunkLoop total sel (line :: rest) idx).2.2.2 = true := by
  simp only [filterHunkLoop]
  by_cases h1 : line = [] ∧ idx = total - 1
  · rw [if_pos h1]
    exact h
  · rw [if_neg h1]
    by_cases h2 : (str "+").isPrefixOf line = true
    · rw [if_pos h2]
      by_cases h3 : sel.contains idx = true
      · rw [if_pos h3]
      · rw [if_neg h3]
        exact h
    · rw [if_neg h2]
      by_cases h4 : (str "-").isPrefixOf line = true
      · rw [if_pos h4]
        by_cases h3 : sel.contains idx = true
        · rw [if_pos h3]
        · rw [if_neg h3]
          exact h
      · rw [if_neg h4]
        by_cases h5 : (str " ").isPrefixOf line = true
        · rw [if_pos h5]
          exact h
        · rw [if_neg h5]
          exact h

/-- Helper: a selected addition or deletion line switches the filtering
loop's change flag on. -/
theorem filterHunkLoop_flag_of_selected (sel : List Nat) :
    ∀ (lines : List Str) (j idx total : Nat),
      sel.contains (idx + j) = true →
      ((str "+").isPrefixOf (lines.getD j []) = true
        ∨ (str "-").isPrefixOf (lines.getD j []) = true) →
      j < lines.length →
      (filterHunkLoop total sel lines idx).2.2.2 = true
  | [], j, _, _, _, _, hj => absurd hj (by simp)
  | line :: rest, 0, idx, total, hsel, hpre, _ => by
    rw [Nat.add_zero] at hsel
    have hgd : (line :: rest).getD 0 [] = line := rfl
    rw [hgd] at hpre
    have hne : ¬(line = [] ∧ idx = total - 1) := by
      rintro ⟨rfl, -⟩
      rcases hpre with hp | hp <;> revert hp <;> decide
    simp only [filterHunkLoop]
    rw [if_neg hne]
    by_cases h2 : (str "+").isPrefixOf line = true
    · rw [if_pos h2, if_pos hsel]
    · have hm : (str "-").isPrefixOf line = true := by
        rcases hpre with hp | hp
        · exact absurd hp h2
        · exact hp
      rw [if_neg h2, if_pos hm, if_pos hsel]
  | line :: rest, j + 1, idx, total, hsel, hpre, hj => by
    have hrec := filterHunkLoop_flag_of_selected sel rest j (idx + 1) total
      (by rw [show idx + 1 + j = idx + (j + 1) from by omega]; exact hsel)
      (by simpa using hpre)
      (by simp only [List.length_cons] at hj; omega)
    exact filterHunkLoop_flag_mono total sel line rest idx hrec

/-- Helper: a hunk with a parseable header whose selection includes a
changed line filters to a hunk that has changes. -/
theorem filterHunk_hasChanges_of_selected (hunk : ParsedHunk) (sel : List Nat) (i : Nat)
    (hch : i ∈ changedLineIndices hunk.content)
    (hsel : sel.contains i = true)
    (hph : (parseHunkHeader hunk.header).isSome = true) :
    (filterHunk hunk sel).hasChanges = true := by
  obtain ⟨hrange, hpred⟩ := List.mem_filter.mp hch
  have hlt : i < (splitNL hunk.content).length := List.mem_range.mp hrange
  have hpre : (str "+").isPrefixOf ((splitNL hunk.content).getD i []) = true
      ∨ (str "-").isPrefixOf ((splitNL hunk.content).getD i []) = true := by
    rw [Bool.or_eq_true] at hpred
    exact hpred
  rw [filterHunk]
  cases hph' : parseHunkHeader hunk.header with
  | none => rw [hph'] at hph; exact Bool.noConfusion hph
  | some hh =>
    exact filterHunkLoop_flag_of_selected sel (splitNL hunk.content) i 0
      (splitNL hunk.content).length (by rw [Nat.zero_add]; exact hsel) hpre hlt

/-- Helper: a file whose hunks all carry other ids emits nothing for this
hunk id and leaves its used entry unchanged. -/
theorem processFileHunks_none (ranges : List LineRange) (hid i : Nat) :
    ∀ (hunks : List ParsedHunk) (used : UsedMap),
      (∀ h' ∈ hunks, h'.id ≠ hid) →
      emitsOf (processFileHunks ranges hunks used).1 hid i = 0
      ∧ usedLookup (processFileHunks ranges hunks used).2 hid = usedLookup used hid
  | [], used, _ => ⟨rfl, rfl⟩
  | hunk :: rest, used, hne => by
    have hhd : hunk.id ≠ hid := hne hunk (List.mem_cons_self _ _)
    have htl : ∀ h' ∈ rest, h'.id ≠ hid := fun h' hm => hne h' (List.mem_cons_of_mem _ hm)
    rw [processFileHunks_cons]
    by_cases hc1 : (ranges.filter (fun r => r.hunkId == hunk.id)).isEmpty = true
    · rw [if_pos hc1]
      exact processFileHunks_none ranges hid i rest used htl
    · rw [if_neg hc1]
      by_cases hc2 : (hunkSel ranges used hunk.id).isEmpty = true
      · rw [if_pos hc2]
        exact processFileHunks_none ranges hid i rest used htl
      · rw [if_neg hc2]
        by_cases hc3 : (filterHunk hunk (hunkSel ranges used hunk.id)).hasChanges = true
        · rw [if_pos hc3]
          have hr := processFileHunks_none ranges hid i rest
            (usedAdd used hunk.id (hunkSel ranges used hunk.id)) htl
          refine ⟨?_, ?_⟩
          · rw [show ((⟨hunk.id, hunkSel ranges used hunk.id,
                filterHunk hunk (hunkSel ranges used hunk.id)⟩ : EmittedHunk)
                  :: (processFileHunks ranges rest
                        (usedAdd used hunk.id (hunkSel ranges used hunk.id))).1,
                (processFileHunks ranges rest
                    (usedAdd used hunk.id (hunkSel ranges used hunk.id))).2).1
              = (⟨hunk.id, hunkSel ranges used hunk.id,
                  filterHunk hunk (hunkSel ranges used hunk.id)⟩ : EmittedHunk)
                  :: (processFileHunks ranges rest
                        (usedAdd used hunk.id (hunkSel ranges used hunk.id))).1 from rfl]
            rw [emitsOf_cons_neg _ _ _ _
              (by rw [Bool.and_eq_false_iff]
                  exact Or.inl (beq_eq_false_iff_ne.mpr hhd))]
            exact hr.1
          · rw [show ((⟨hunk.id, hunkSel ranges used hunk.id,
                filterHunk hunk (hunkSel ranges used hunk.id)⟩ : EmittedHunk)
                  :: (processFileHunks ranges rest
                        (usedAdd used hunk.id (hunkSel ranges used hunk.id))).1,
                (processFileHunks ranges rest
                    (usedAdd used hunk.id (hunkSel ranges used hunk.id))).2).2
              = (processFileHunks ranges rest
                  (usedAdd used hunk.id (hunkSel ranges used hunk.id))).2 from rfl]
            rw [hr.2, usedAdd_lookup_other hunk.id hid _ hhd]
        · rw [if_neg hc3]
          exact processFileHunks_none ranges hid i rest used htl

/-- Helper: a file change selecting nothing for a hunk id emits nothing for
it, and preserves whether its used entry holds the index. -/
theorem processFileHunks_nosel (ranges : List LineRange) (hid i : Nat)
    (hnosel : (selOf ranges hid).contains i = false) :
    ∀ (hunks : List ParsedHunk) (used : UsedMap),
      emitsOf (processFileHunks ranges hunks used).1 hid i = 0
      ∧ ((usedLookup (processFileHunks ranges hunks used).2 hid).contains i
          = (usedLookup used hid).contains i)
  | [], _ => ⟨rfl, rfl⟩
  | hunk :: rest, used => by
    rw [processFileHunks_cons]
    by_cases hc1 : (ranges.filter (fun r => r.hunkId == hunk.id)).isEmpty = true
    · rw [if_pos hc1]
      exact processFileHunks_nosel ranges hid i hnosel rest used
    · rw [if_neg hc1]
      by_cases hc2 : (hunkSel ranges used hunk.id).isEmpty = true
      · rw [if_pos hc2]
        exact processFileHunks_nosel ranges hid i hnosel rest used
      · rw [if_neg hc2]
        by_cases hc3 : (filterHunk hunk (hunkSel ranges used hunk.id)).hasChanges = true
        · rw [if_pos hc3]
          by_cases hb : hunk.id = hid
          · subst hb
            have hselc : (hunkSel ranges used hunk.id).contains i = false :=
              contains_filter_false _ _ _ hnosel
            have hr := processFileHunks_nosel ranges hunk.id i hnosel rest
              (usedAdd used hunk.id (hunkSel ranges used hunk.id))
            refine ⟨?_, ?_⟩
            · rw [show ((⟨hunk.id, hunkSel ranges used hunk.id,
                  filterHunk hunk (hunkSel ranges used hunk.id)⟩ : EmittedHunk)
                    :: (processFileHunks ranges rest
                          (usedAdd used hunk.id (hunkSel ranges used hunk.id))).1,
                  (processFileHunks ranges rest
                      (usedAdd used hunk.id (hunkSel ranges used hunk.id))).2).1
                = (⟨hunk.id, hunkSel ranges used hunk.id,
                    filterHunk hunk (hunkSel ranges used hunk.id)⟩ : EmittedHunk)
                    :: (processFileHunks ranges rest
                          (usedAdd used hunk.id (hunkSel ranges used hunk.id))).1 from rfl]
              rw [emitsOf_cons_neg _ _ _ _
                (by rw [Bool.and_eq_false_iff]; exact Or.inr hselc)]
              exact hr.1
            · rw [show ((⟨hunk.id, hunkSel ranges used hunk.id,
                  filterHunk hunk (hunkSel ranges used hunk.id)⟩ : EmittedHunk)
                    :: (processFileHunks ranges rest
                          (usedAdd used hunk.id (hunkSel ranges used hunk.id))).1,
                  (processFileHunks ranges rest
                      (usedAdd used hunk.id (hunkSel ranges used hunk.id))).2).2
                = (processFileHunks ranges rest
                    (usedAdd used hunk.id (hunkSel ranges used hunk.id))).2 from rfl]
              rw [hr.2, usedAdd_lookup_same hunk.id (hunkSel ranges used hunk.id) used,
                contains_append, hselc, Bool.or_false]
          · have hr := processFileHunks_nosel ranges hid i hnosel rest
              (usedAdd used hunk.id (hunkSel ranges used hunk.id))
            refine ⟨?_, ?_⟩
            · rw [show ((⟨hunk.id, hunkSel ranges used hunk.id,
                  filterHunk hunk (hunkSel ranges used hunk.id)⟩ : EmittedHunk)
                    :: (processFileHunks ranges rest
                          (usedAdd used hunk.id (hunkSel ranges used hunk.id))).1,
                  (processFileHunks ranges rest
                      (usedAdd used hunk.id (hunkSel ranges used hunk.id))).2).1
                = (⟨hunk.id, hunkSel ranges used hunk.id,
                    filterHunk hunk (hunkSel ranges used hunk.id)⟩ : EmittedHunk)
                    :: (processFileHunks ranges rest
                          (usedAdd used hunk.id (hunkSel ranges used hunk.id))).1 from rfl]
              rw [emitsOf_cons_neg _ _ _ _
                (by rw [Bool.and_eq_false_iff]
                    exact Or.inl (beq_eq_false_iff_ne.mpr hb))]
              exact hr.1
            · rw [show ((⟨hunk.id, hunkSel ranges used hunk.id,
                  filterHunk hunk (hunkSel ranges used hunk.id)⟩ : EmittedHunk)
                    :: (processFileHunks ranges rest
                          (usedAdd used hunk.id (hunkSel ranges used hunk.id))).1,
                  (processFileHunks ranges rest
                      (usedAdd used hunk.id (hunkSel ranges used hunk.id))).2).2
                = (processFileHunks ranges rest
                    (usedAdd used hunk.id (hunkSel ranges used hunk.id))).2 from rfl]
              rw [hr.2, usedAdd_lookup_other hunk.id hid _ hb]
        · rw [if_neg hc3]
          exact processFileHunks_nosel ranges hid i hnosel rest used

/-- Unfolding equation of `processCommitFiles` on a non-empty file-change
list. -/
theorem processCommitFiles_cons (files : List ParsedFileDiff) (fc : FileChangeRanges)
    (rest : List FileChangeRanges) (used : UsedMap) :
    processCommitFiles files (fc :: rest) used
      = match files.find? (fun f => f.filePath == fc.filePath) with
        | none => processCommitFiles files rest used
        | some file =>
          ((file, (processFileHunks fc.ranges file.hunks used).1)
              :: (processCommitFiles files rest
                    (processFileHunks fc.ranges file.hunks used).2).1,
            (processCommitFiles files rest
                (processFileHunks fc.ranges file.hunks used).2).2) := rfl

/-- Helper: when a file change selects a not-yet-used changed index of one
of the file's hunks, that hunk is emitted exactly once carrying the
index. -/
theorem processFileHunks_one (ranges : List LineRange) (i : Nat) (h : ParsedHunk)
    (hch : i ∈ changedLineIndices h.content)
    (hph : (parseHunkHeader h.header).isSome = true)
    (hsel0 : (selOf ranges h.id).contains i = true) :
    ∀ (hunks : List ParsedHunk) (used : UsedMap),
      h ∈ hunks →
      (hunks.map (fun x => x.id)).Nodup →
      (usedLookup used h.id).contains i = false →
      emitsOf (processFileHunks ranges hunks used).1 h.id i = 1
  | [], _, hmem, _, _ => absurd hmem (List.not_mem_nil _)
  | hunk :: rest, used, hmem, hnodup, hused => by
    have hn := hnodup
    rw [List.map_cons] at hn
    have hnc := List.nodup_cons.mp hn
    rcases List.mem_cons.mp hmem with rfl | hmem'
    · rw [processFileHunks_cons]
      have hiSel : i ∈ selOf ranges h.id := (contains_iff_mem _ _).mp hsel0
      obtain ⟨r, hr, hrid, hir⟩ := selOf_mem ranges h.id i hiSel
      have hc1 : (ranges.filter (fun r => r.hunkId == h.id)).isEmpty = false := by
        apply isEmpty_false_of_mem _ r
        exact List.mem_filter.mpr ⟨hr, by simp [hrid]⟩
      rw [if_neg (fun hh => Bool.noConfusion (hc1.symm.trans hh))]
      have hiSel' : i ∈ hunkSel ranges used h.id := by
        apply List.mem_filter.mpr
        refine ⟨hiSel, ?_⟩
        rw [hused]
        rfl
      have hc2 : (hunkSel ranges used h.id).isEmpty = false :=
        isEmpty_false_of_mem _ i hiSel'
      rw [if_neg (fun hh => Bool.noConfusion (hc2.symm.trans hh))]
      have hselc : (hunkSel ranges used h.id).contains i = true :=
        (contains_iff_mem _ _).mpr hiSel'
      have hc3 : (filterHunk h (hunkSel ranges used h.id)).hasChanges = true :=
        filterHunk_hasChanges_of_selected h _ i hch hselc hph
      rw [if_pos hc3]
      rw [show ((⟨h.id, hunkSel ranges used h.id,
            filterHunk h (hunkSel ranges used h.id)⟩ : EmittedHunk)
              :: (processFileHunks ranges rest
                    (usedAdd used h.id (hunkSel ranges used h.id))).1,
            (processFileHunks ranges rest
                (usedAdd used h.id (hunkSel ranges used h.id))).2).1
          = (⟨h.id, hunkSel ranges used h.id,
              filterHunk h (hunkSel ranges used h.id)⟩ : EmittedHunk)
              :: (processFileHunks ranges rest
                    (usedAdd used h.id (hunkSel ranges used h.id))).1 from rfl]
      rw [emitsOf_cons_pos _ _ _ _
        (by rw [Bool.and_eq_true]; exact ⟨beq_self_eq_true _, hselc⟩)]
      have hrest : ∀ h' ∈ rest, h'.id ≠ h.id := by
        intro h' hm heq
        exact hnc.1 (List.mem_map.mpr ⟨h', hm, heq⟩)
      rw [(processFileHunks_none ranges h.id i rest
        (usedAdd used h.id (hunkSel ranges used h.id)) hrest).1]
    · have hhd : hunk.id ≠ h.id := by
        intro heq
        apply hnc.1
        rw [heq]
        exact List.mem_map.mpr ⟨h, hmem', rfl⟩
      rw [processFileHunks_cons]
      by_cases hc1 : (ranges.filter (fun r => r.hunkId == hunk.id)).isEmpty = true
      · rw [if_pos hc1]
        exact processFileHunks_one ranges i h hch hph hsel0 rest used hmem' hnc.2 hused
      · rw [if_neg hc1]
        by_cases hc2 : (hunkSel ranges used hunk.id).isEmpty = true
        · rw [if_pos hc2]
          exact processFileHunks_one ranges i h hch hph hsel0 rest used hmem' hnc.2 hused
        · rw [if_neg hc2]
          by_cases hc3 : (filterHunk hunk (hunkSel ranges used hunk.id)).hasChanges = true
          · rw [if_pos hc3]
            rw [show ((⟨hunk.id, hunkSel ranges used hunk.id,
                  filterHunk hunk (hunkSel ranges used hunk.id)⟩ : EmittedHunk)
                    :: (processFileHunks ranges rest
                          (usedAdd used hunk.id (hunkSel ranges used hunk.id))).1,
                  (processFileHunks ranges rest
                      (usedAdd used hunk.id (hunkSel ranges used hunk.id))).2).1
                = (⟨hunk.id, hunkSel ranges used hunk.id,
                    filterHunk hunk (hunkSel ranges used hunk.id)⟩ : EmittedHunk)
                    :: (processFileHunks ranges rest
                          (usedAdd used hunk.id (hunkSel ranges used hunk.id))).1 from rfl]
            rw [emitsOf_cons_neg _ _ _ _
              (by rw [Bool.and_eq_false_iff]
                  exact Or.inl (beq_eq_false_iff_ne.mpr hhd))]
            have hused' : (usedLookup (usedAdd used hunk.id
                (hunkSel ranges used hunk.id)) h.id).contains i = false := by
              rw [usedAdd_lookup_other hunk.id h.id _ hhd]
              exact hused
            exact processFileHunks_one ranges i h hch hph hsel0 rest
              (usedAdd used hunk.id (hunkSel ranges used hunk.id)) hmem' hnc.2 hused'
          · rw [if_neg hc3]
            exact processFileHunks_one ranges i h hch hph hsel0 rest used hmem' hnc.2 hused

/-- Unfolding equation of `processCommitFiles` when the path lookup
fails. -/
theorem processCommitFiles_cons_none (files : List ParsedFileDiff) (fc : FileChangeRanges)
    (rest : List FileChangeRanges) (used : UsedMap)
    (hf : files.find? (fun f => f.filePath == fc.filePath) = none) :
    processCommitFiles files (fc :: rest) used = processCommitFiles files rest used := by
  rw [processCommitFiles_cons, hf]

/-- Unfolding equation of `processCommitFiles` when the path lookup finds a
file. -/
theorem processCommitFiles_cons_some (files : List ParsedFileDiff) (fc : FileChangeRanges)
    (rest : List FileChangeRanges) (used : UsedMap) (file : ParsedFileDiff)
    (hf : files.find? (fun f => f.filePath == fc.filePath) = some file) :
    processCommitFiles files (fc :: rest) used
      = ((file, (processFileHunks fc.ranges file.hunks used).1)
            :: (processCommitFiles files rest
                  (processFileHunks fc.ranges file.hunks used).2).1,
          (processCommitFiles files rest
              (processFileHunks fc.ranges file.hunks used).2).2) := by
  rw [processCommitFiles_cons, hf]

/-- Helper: a commit whose file changes select nothing for a hunk id emits
nothing for it and preserves whether its used entry holds the index. -/
theorem processCommitFiles_zero (files : List ParsedFileDiff) (hid i : Nat) :
    ∀ (fcs : List FileChangeRanges) (used : UsedMap),
      (∀ fc ∈ fcs, (selOf fc.ranges hid).contains i = false) →
      emitsOfCommit (processCommitFiles files fcs used).1 hid i = 0
      ∧ ((usedLookup (processCommitFiles files fcs used).2 hid).contains i
          = (usedLookup used hid).contains i)
  | [], _, _ => ⟨rfl, rfl⟩
  | fc :: rest, used, hall => by
    have hhd := hall fc (List.mem_cons_self _ _)
    have htl := fun fc' hm => hall fc' (List.mem_cons_of_mem _ hm)
    cases hf : files.find? (fun f => f.filePath == fc.filePath) with
    | none =>
      rw [processCommitFiles_cons_none files fc rest used hf]
      exact processCommitFiles_zero files hid i rest used htl
    | some file =>
      rw [processCommitFiles_cons_some files fc rest used file hf]
      have hfh := processFileHunks_nosel fc.ranges hid i hhd file.hunks used
      have hrt := processCommitFiles_zero files hid i rest
        (processFileHunks fc.ranges file.hunks used).2 htl
      refine ⟨?_, ?_⟩
      · rw [show ((file, (processFileHunks fc.ranges file.hunks used).1)
              :: (processCommitFiles files rest
                    (processFileHunks fc.ranges file.hunks used).2).1,
            (processCommitFiles files rest
                (processFileHunks fc.ranges file.hunks used).2).2).1
          = (file, (processFileHunks fc.ranges file.hunks used).1)
              :: (processCommitFiles files rest
                    (processFileHunks fc.ranges file.hunks used).2).1 from rfl]
        rw [emitsOfCommit_cons]
        rw [show ((file, (processFileHunks fc.ranges file.hunks used).1)).2
            = (processFileHunks fc.ranges file.hunks used).1 from rfl]
        rw [hfh.1, hrt.1]
      · rw [show ((file, (processFileHunks fc.ranges file.hunks used).1)
              :: (processCommitFiles files rest
                    (processFileHunks fc.ranges file.hunks used).2).1,
            (processCommitFiles files rest
                (processFileHunks fc.ranges file.hunks used).2).2).2
          = (processCommitFiles files rest
              (processFileHunks fc.ranges file.hunks used).2).2 from rfl]
        rw [hrt.2, hfh.2]

/-- Helper: a commit that selects a not-yet-used changed index of a hunk in
exactly one of its file changes emits the hunk with that index exactly
once. -/
theorem processCommitFiles_one (files : List ParsedFileDiff)
    (fileH : ParsedFileDiff) (h : ParsedHunk) (i : Nat)
    (hpaths : (files.map (fun f => f.filePath)).Nodup)
    (hfmem : fileH ∈ files) (hhmem : h ∈ fileH.hunks)
    (hnodupH : (fileH.hunks.map (fun x => x.id)).Nodup)
    (hch : i ∈ changedLineIndices h.content)
    (hph : (parseHunkHeader h.header).isSome = true) :
    ∀ (fcs : List FileChangeRanges) (used : UsedMap),
      (∀ fc ∈ fcs, ∀ r ∈ fc.ranges, r.hunkId = h.id → fc.filePath = fileH.filePath) →
      fcs.countP (fun fc => (selOf fc.ranges h.id).contains i) = 1 →
      (usedLookup used h.id).contains i = false →
      emitsOfCommit (processCommitFiles files fcs used).1 h.id i = 1
  | [], _, _, hcount, _ => absurd hcount (by simp)
  | fc :: rest, used, haddr, hcount, hused => by
    rw [List.countP_cons] at hcount
    by_cases hsel : (selOf fc.ranges h.id).contains i = true
    · have hrest0 : rest.countP (fun fc => (selOf fc.ranges h.id).contains i) = 0 := by
        rw [if_pos hsel] at hcount
        omega
      have hrestall : ∀ fc' ∈ rest, (selOf fc'.ranges h.id).contains i = false := by
        intro fc' hm
        have := List.countP_eq_zero.mp hrest0 fc' hm
        rw [Bool.not_eq_true] at this
        exact this
      obtain ⟨r, hr, hrid, hir⟩ := selOf_mem fc.ranges h.id i ((contains_iff_mem _ _).mp hsel)
      have hpath : fc.filePath = fileH.filePath :=
        haddr fc (List.mem_cons_self _ _) r hr hrid
      have hf : files.find? (fun f => f.filePath == fc.filePath) = some fileH := by
        rw [hpath]
        exact find?_filePath fileH files hpaths hfmem
      rw [processCommitFiles_cons_some files fc rest used fileH hf]
      rw [show ((fileH, (processFileHunks fc.ranges fileH.hunks used).1)
              :: (processCommitFiles files rest
                    (processFileHunks fc.ranges fileH.hunks used).2).1,
            (processCommitFiles files rest
                (processFileHunks fc.ranges fileH.hunks used).2).2).1
          = (fileH, (processFileHunks fc.ranges fileH.hunks used).1)
              :: (processCommitFiles files rest
                    (processFileHunks fc.ranges fileH.hunks used).2).1 from rfl]
      rw [emitsOfCommit_cons]
      rw [show ((fileH, (processFileHunks fc.ranges fileH.hunks used).1)).2
          = (processFileHunks fc.ranges fileH.hunks used).1 from rfl]
      rw [processFileHunks_one fc.ranges i h hch hph hsel fileH.hunks used hhmem hnodupH hused]
      rw [(processCommitFiles_zero files h.id i rest
        (processFileHunks fc.ranges fileH.hunks used).2 hrestall).1]
    · have hselF : (selOf fc.ranges h.id).contains i = false := by
        rw [Bool.not_eq_true] at hsel
        exact hsel
      have hcount' : rest.countP (fun fc => (selOf fc.ranges h.id).contains i) = 1 := by
        rw [if_neg hsel] at hcount
        omega
      have htl : ∀ fc' ∈ rest, ∀ r ∈ fc'.ranges, r.hunkId = h.id →
          fc'.filePath = fileH.filePath :=
        fun fc' hm => haddr fc' (List.mem_cons_of_mem _ hm)
      cases hf : files.find? (fun f => f.filePath == fc.filePath) with
      | none =>
        rw [processCommitFiles_cons_none files fc rest used hf]
        exact processCommitFiles_one files fileH h i hpaths hfmem hhmem hnodupH hch hph
          rest used htl hcount' hused
      | some file =>
        rw [processCommitFiles_cons_some files fc rest used file hf]
        have hfh := processFileHunks_nosel fc.ranges h.id i hselF file.hunks used
        rw [show ((file, (processFileHunks fc.ranges file.hunks used).1)
                :: (processCommitFiles files rest
                      (processFileHunks fc.ranges file.hunks used).2).1,
              (processCommitFiles files rest
                  (processFileHunks fc.ranges file.hunks used).2).2).1
            = (file, (processFileHunks fc.ranges file.hunks used).1)
                :: (processCommitFiles files rest
                      (processFileHunks fc.ranges file.hunks used).2).1 from rfl]
        rw [emitsOfCommit_cons]
        rw [show ((file, (processFileHunks fc.ranges file.hunks used).1)).2
            = (processFileHunks fc.ranges file.hunks used).1 from rfl]
        rw [hfh.1]
        have hused' : (usedLookup (processFileHunks fc.ranges file.hunks used).2
            h.id).contains i = false := by
          rw [hfh.2]
          exact hused
        rw [processCommitFiles_one files fileH h i hpaths hfmem hhmem hnodupH hch hph
          rest (processFileHunks fc.ranges file.hunks used).2 htl hcount' hused']

/-- Unfolding equation of `buildPatchesAux` on a non-empty commit list. -/
theorem buildPatchesAux_cons (files : List ParsedFileDiff) (c : CommitChanges)
    (rest : List CommitChanges) (used : UsedMap) :
    buildPatchesAux files (c :: rest) used
      = (c, (processCommitFiles files c.fileChanges used).1)
          :: buildPatchesAux files rest (processCommitFiles files c.fileChanges used).2 := rfl

/-- Helper: under per-commit distinct paths and well-addressed ranges, a
commit that selects the index somewhere selects it in exactly one file
change. -/
theorem fcs_countP_one (fileH : ParsedFileDiff) (hid i : Nat) :
    ∀ (fcs : List FileChangeRanges),
      (fcs.map (fun fc => fc.filePath)).Nodup →
      (∀ fc ∈ fcs, (selOf fc.ranges hid).contains i = true →
        fc.filePath = fileH.filePath) →
      (∃ fc ∈ fcs, (selOf fc.ranges hid).contains i = true) →
      fcs.countP (fun fc => (selOf fc.ranges hid).contains i) = 1
  | [], _, _, hex => absurd hex (by simp)
  | fc :: rest, hnodup, hpath, hex => by
    rw [List.map_cons] at hnodup
    have hnc := List.nodup_cons.mp hnodup
    rw [List.countP_cons]
    by_cases hsel : (selOf fc.ranges hid).contains i = true
    · rw [if_pos hsel]
      have hzero : rest.countP (fun fc => (selOf fc.ranges hid).contains i) = 0 := by
        apply List.countP_eq_zero.mpr
        intro fc' hm hsel'
        have hp1 : fc.filePath = fileH.filePath := hpath fc (List.mem_cons_self _ _) hsel
        have hp2 : fc'.filePath = fileH.filePath :=
          hpath fc' (List.mem_cons_of_mem _ hm) hsel'
        apply hnc.1
        rw [hp1, ← hp2]
        exact List.mem_map.mpr ⟨fc', hm, rfl⟩
      omega
    · rw [if_neg hsel]
      have hex' : ∃ fc' ∈ rest, (selOf fc'.ranges hid).contains i = true := by
        obtain ⟨fc', hm, hs⟩ := hex
        rcases List.mem_cons.mp hm with rfl | hm'
        · exact absurd hs hsel
        · exact ⟨fc', hm', hs⟩
      rw [fcs_countP_one fileH hid i rest hnc.2
        (fun fc' hm => hpath fc' (List.mem_cons_of_mem _ hm)) hex']

/-- Helper: commits selecting nothing for a hunk id emit nothing for it. -/
theorem buildPatchesAux_zero (files : List ParsedFileDiff) (hid i : Nat) :
    ∀ (commits : List CommitChanges) (used : UsedMap),
      (∀ c ∈ commits, (commitSel c hid).contains i = false) →
      emitCount (buildPatchesAux files commits used) hid i = 0
  | [], _, _ => rfl
  | c :: rest, used, hall => by
    rw [buildPatchesAux_cons, emitCount_cons]
    have hc := hall c (List.mem_cons_self _ _)
    have hz := processCommitFiles_zero files hid i c.fileChanges used
      (commitSel_not_contains c hid i hc)
    rw [show ((c, (processCommitFiles files c.fileChanges used).1) :
          CommitChanges × List (ParsedFileDiff × List EmittedHunk)).2
        = (processCommitFiles files c.fileChanges used).1 from rfl]
    rw [hz.1]
    rw [buildPatchesAux_zero files hid i rest
      (processCommitFiles files c.fileChanges used).2
      (fun c' hm => hall c' (List.mem_cons_of_mem _ hm))]

/-- Helper: the main induction for C5 — under the well-formedness
hypotheses, if exactly one commit selects a changed index of a hunk, then
exactly one emitted patch carries that hunk with that index selected. -/
theorem buildPatchesAux_one (files : List ParsedFileDiff)
    (fileH : ParsedFileDiff) (h : ParsedHunk) (i : Nat)
    (hpaths : (files.map (fun f => f.filePath)).Nodup)
    (hfmem : fileH ∈ files) (hhmem : h ∈ fileH.hunks)
    (hnodupH : (fileH.hunks.map (fun x => x.id)).Nodup)
    (hch : i ∈ changedLineIndices h.content)
    (hph : (parseHunkHeader h.header).isSome = true) :
    ∀ (commits : List CommitChanges) (used : UsedMap),
      (∀ c ∈ commits, ∀ fc ∈ c.fileChanges, ∀ r ∈ fc.ranges,
        r.hunkId = h.id → fc.filePath = fileH.filePath) →
      (∀ c ∈ commits, (c.fileChanges.map (fun fc => fc.filePath)).Nodup) →
      commits.countP (fun c => (commitSel c h.id).contains i) = 1 →
      (usedLookup used h.id).contains i = false →
      emitCount (buildPatchesAux files commits used) h.id i = 1
  | [], _, _, _, hcount, _ => absurd hcount (by simp)
  | c :: rest, used, haddr, hfcpaths, hcount, hused => by
    rw [List.countP_cons] at hcount
    rw [buildPatchesAux_cons, emitCount_cons]
    rw [show ((c, (processCommitFiles files c.fileChanges used).1) :
          CommitChanges × List (ParsedFileDiff × List EmittedHunk)).2
        = (processCommitFiles files c.fileChanges used).1 from rfl]
    by_cases hc : (commitSel c h.id).contains i = true
    · have hrest0 : rest.countP (fun c => (commitSel c h.id).contains i) = 0 := by
        rw [if_pos hc] at hcount
        omega
      have hfc1 : c.fileChanges.countP
          (fun fc => (selOf fc.ranges h.id).contains i) = 1 := by
        apply fcs_countP_one fileH h.id i c.fileChanges
          (hfcpaths c (List.mem_cons_self _ _))
        · intro fc hm hsel
          obtain ⟨r, hr, hrid, hir⟩ :=
            selOf_mem fc.ranges h.id i ((contains_iff_mem _ _).mp hsel)
          exact haddr c (List.mem_cons_self _ _) fc hm r hr hrid
        · exact commitSel_contains_exists c h.id i hc
      rw [processCommitFiles_one files fileH h i hpaths hfmem hhmem hnodupH hch hph
        c.fileChanges used (fun fc hm => haddr c (List.mem_cons_self _ _) fc hm) hfc1 hused]
      have hrestall : ∀ c' ∈ rest, (commitSel c' h.id).contains i = false := by
        intro c' hm
        have hnp := List.countP_eq_zero.mp hrest0 c' hm
        rw [Bool.not_eq_true] at hnp
        exact hnp
      rw [buildPatchesAux_zero files h.id i rest
        (processCommitFiles files c.fileChanges used).2 hrestall]
    · have hcF : (commitSel c h.id).contains i = false := by
        rw [Bool.not_eq_true] at hc
        exact hc
      have hcount' : rest.countP (fun c => (commitSel c h.id).contains i) = 1 := by
        rw [if_neg hc] at hcount
        omega
      have hz := processCommitFiles_zero files h.id i c.fileChanges used
        (commitSel_not_contains c h.id i hcF)
      rw [hz.1]
      have hused' : (usedLookup (processCommitFiles files c.fileChanges used).2
          h.id).contains i = false := by
        rw [hz.2]
        exact hused
      rw [buildPatchesAux_one files fileH h i hpaths hfmem hhmem hnodupH hch hph rest
        (processCommitFiles files c.fileChanges used).2
        (fun c' hm => haddr c' (List.mem_cons_of_mem _ hm))
        (fun c' hm => hfcpaths c' (List.mem_cons_of_mem _ hm)) hcount' hused']

/-- C5.  Exhaustive and disjoint partitioning: with distinct file paths,
globally distinct hunk ids, well-addressed ranges (every range naming the
hunk's id sits in the file change for the hunk's file), per-commit
distinct file-change paths, a parseable hunk header, and a plan that
selects the changed line index in exactly one commit, the line-level
reconstruction emits the hunk with that index selected in exactly one
patch — never zero, never more than one.  Analogously, in hunk-level mode
a hunk is selected into exactly as many patches as there are groups
containing its id, so a partition of the ids yields each hunk exactly
once. -/
theorem partition_exhaustive_disjoint
    (files : List ParsedFileDiff) (commits : List CommitChanges)
    (fileH : ParsedFileDiff) (h : ParsedHunk) (i : Nat)
    (hfmem : fileH ∈ files) (hhmem : h ∈ fileH.hunks)
    (hpaths : (files.map (fun f => f.filePath)).Nodup)
    (hids : ((files.flatMap (fun f => f.hunks)).map (fun x => x.id)).Nodup)
    (haddr : ∀ c ∈ commits, ∀ fc ∈ c.fileChanges, ∀ r ∈ fc.ranges,
      r.hunkId = h.id → fc.filePath = fileH.filePath)
    (hfcpaths : ∀ c ∈ commits, (c.fileChanges.map (fun fc => fc.filePath)).Nodup)
    (hch : i ∈ changedLineIndices h.content)
    (hph : (parseHunkHeader h.header).isSome = true)
    (hpart : commits.countP (fun c => (commitSel c h.id).contains i) = 1) :
    emitCount (buildPatchesAux files commits []) h.id i = 1
    ∧ ∀ (groups : List (List Nat)),
        groups.countP (fun ids => (selectedHunks fileH ids).contains h)
          = groups.countP (fun ids => ids.contains h.id) := by
  constructor
  · exact buildPatchesAux_one files fileH h i hpaths hfmem hhmem
      (nodup_file_ids files fileH hids hfmem) hch hph commits [] haddr hfcpaths hpart rfl
  · intro groups
    apply List.countP_congr
    intro ids _
    constructor
    · intro hcont
      have hm := (contains_iff_mem _ _).mp hcont
      exact (List.mem_filter.mp hm).2
    · intro hcont
      exact (contains_iff_mem _ _).mpr (List.mem_filter.mpr ⟨hhmem, hcont⟩)

/-- Witness for C5: one file `w` with a single hunk `-a/+b/ x`, split into
a commit taking line 0 and a commit taking line 1; line 0 is emitted in
exactly one patch. -/
theorem partition_exhaustive_disjoint_witness :
    exC5File ∈ [exC5File]
    ∧ (0 : Nat) ∈ changedLineIndices exC5Hunk.content
    ∧ emitCount (buildPatchesAux [exC5File] [exC5Commit1, exC5Commit2] [])
        exC5Hunk.id 0 = 1 := by
  refine ⟨by decide, by decide, ?_⟩
  exact (partition_exhaustive_disjoint [exC5File] [exC5Commit1, exC5Commit2]
    exC5File exC5Hunk 0 (by decide) (by decide) (by decide) (by decide) (by decide)
    (by decide) (by decide) (by decide) (by decide)).1

end GitFission
